import Mathlib

/-!
Verification of the depgraph dependency-resolution library.

This file gives a shallow embedding of the library in Lean 4 and proves
properties of it.  Datasets are nodes of a graph; since the Python
implementation distinguishes object identity (used by the hash-based
membership of Python sets and dicts, because Dataset inherits
object.__hash__) from structural equality (Dataset.__eq__, which compares
the name and the metadata store), nodes are represented by natural-number
identifiers and the graph carries, for each identifier, the name, the
metadata store, the ordered parent set and the ordered child set.
Python sets deduplicate by identity, so parent and child sets are lists of
identifiers into which insertion deduplicates by identifier; structural
equality is the separate relation pyEq.  The filesystem is a partial map
from file names to modification times.  Python generators and recursions
are embedded as fuelled structural recursions returning Option (none means
the computation did not finish within the given fuel); exceptions are
embedded with Except.
-/

namespace Depgraph

/-- Reason tags mirroring the three Reason singletons of the source
(PARENTMISSING, PARENTNEWER, MISSING). -/
inductive Reason where
  | parentmissing
  | parentnewer
  | missing
deriving DecidableEq, Repr

/-- Exceptions that can escape the planners: CircularDependency raised by
buildnext and buildall, and the RuntimeError raised by walkbranch on an
unexpected reason. -/
inductive PyErr where
  | circular
  | runtime
deriving DecidableEq, Repr

/-- The filesystem: a map from file names to modification times; none means
the file does not exist. -/
def FS : Type := String → Option Nat

/-- A dependency graph over identifier-addressed Dataset nodes.  par i and
chl i are the parent and child sets of node i (as insertion-ordered,
identity-deduplicated lists, mirroring Python sets of objects); name i and
store i are the Dataset name and metadata store of node i. -/
structure Graph where
  name : Nat → String
  store : Nat → List (String × String)
  par : Nat → List Nat
  chl : Nat → List Nat

/-- Structural Dataset equality: Dataset.__eq__ compares the name and the
metadata store. -/
def pyEqB (g : Graph) (i j : Nat) : Bool :=
  decide (g.name i = g.name j ∧ g.store i = g.store j)

/-- Membership of a node in a Python list of Datasets: Python list
membership tests with __eq__, i.e. with pyEqB. -/
def memEq (g : Graph) (x : Nat) (l : List Nat) : Bool :=
  l.any (fun y => pyEqB g x y)

/-- Identity-based set insertion: add x unless an identical member is
already present.  This is how Python sets of Datasets behave, since
Dataset.__hash__ is object.__hash__. -/
def addUnique (l : List Nat) (x : Nat) : List Nat :=
  if x ∈ l then l else l ++ [x]

/-- Deduplicate a list by identity, keeping first occurrences in order.
Iterating a Python set yields each member once; generators such as
parents(0) additionally guard with a visited dict. -/
def dedupList (l : List Nat) : List Nat :=
  l.foldl addUnique []

/-- Identity-based set union, used by dependson:
self parents = self parents.union(datasets). -/
def unionAdd (l : List Nat) (ds : List Nat) : List Nat :=
  ds.foldl addUnique l

/-- Lookup in an insertion-ordered association list (a Python dict keyed by
object identity). -/
def alGet : List (Nat × Nat) → Nat → Option Nat
  | [], _ => none
  | (k0, v0) :: rest, k => if k0 = k then some v0 else alGet rest k

/-- Update an insertion-ordered association list: replace in place if the
key is present, append otherwise (Python dict assignment). -/
def alSet : List (Nat × Nat) → Nat → Nat → List (Nat × Nat)
  | [], k, v => [(k, v)]
  | (k0, v0) :: rest, k, v =>
    if k0 = k then (k, v) :: rest else (k0, v0) :: alSet rest k v

/-- Modification time of the file backing node i (os.stat st_mtime). -/
def mt (g : Graph) (fs : FS) (i : Nat) : Option Nat :=
  fs (g.name i)

/-- Existence of the file backing node i (os.path.exists). -/
def existsD (g : Graph) (fs : FS) (i : Nat) : Bool :=
  (mt g fs i).isSome

/-- Dataset.is_older_than for two plain Datasets whose files exist:
self.max_age < other.min_age, both being the single mtime.  When either
file is missing Python would raise in os.stat; every call site in the
planners guards existence first, so false is returned there. -/
def olderD (g : Graph) (fs : FS) (i j : Nat) : Bool :=
  match mt g fs i, mt g fs j with
  | some a, some b => decide (a < b)
  | _, _ => false

/-- Dataset.dependson: self parents gets the union with datasets, and self
is added to the child set of each member of datasets unless already
present. -/
def dependson (g : Graph) (self : Nat) (datasets : List Nat) : Graph :=
  { g with
    par := fun i => if i = self then unionAdd (g.par self) datasets else g.par i,
    chl := fun i => if i ∈ datasets then addUnique (g.chl i) self else g.chl i }

/-- A graph whose nodes carry the given names, with empty metadata stores
and no edges; the starting point for building graphs with dependson. -/
def mkG (nm : Nat → String) : Graph :=
  { name := nm, store := fun _ => [], par := fun _ => [], chl := fun _ => [] }

/-- Least element of a list of ages (Python min over a generator); none on
the empty list. -/
def lmin : List Nat → Option Nat
  | [] => none
  | x :: xs => some (match lmin xs with | none => x | some m => min x m)

/-- Greatest element of a list of ages (Python max over a generator); none
on the empty list. -/
def lmax : List Nat → Option Nat
  | [] => none
  | x :: xs => some (match lmax xs with | none => x | some m => max x m)

/-- Modification times of a list of member files; none as soon as one of
them is missing (os.stat raises there). -/
def agesOf (fs : FS) : List String → Option (List Nat)
  | [] => some []
  | m :: ms =>
    match fs m, agesOf fs ms with
    | some a, some rest => some (a :: rest)
    | _, _ => none

/-- DatasetGroup.min_age: the least mtime over the member files; none if a
member is missing (os.stat raises) or the group is empty.  A plain Dataset
is the singleton group of its own file. -/
def min_age (fs : FS) (members : List String) : Option Nat :=
  (agesOf fs members).bind lmin

/-- DatasetGroup.max_age: the greatest mtime over the member files; none if
a member is missing or the group is empty. -/
def max_age (fs : FS) (members : List String) : Option Nat :=
  (agesOf fs members).bind lmax

/-- Dataset.is_older_than on groups (or plain datasets as singleton
groups): self.max_age < other.min_age. -/
def is_older_than (fs : FS) (g1 g2 : List String) : Option Bool :=
  match max_age fs g1, min_age fs g2 with
  | some a, some b => some (decide (a < b))
  | _, _ => none

/-- Paths in an adjacency structure: GReach adj a b n holds when b can be
reached from a in exactly n steps, each step moving from a node x to a
member of adj x.  With adj the parent map this is an ancestor path;
with adj the child map, a descendant path. -/
inductive GReach (adj : Nat → List Nat) : Nat → Nat → Nat → Prop where
  | refl (a : Nat) : GReach adj a a 0
  | step {a b c : Nat} {n : Nat} : GReach adj a b n → c ∈ adj b → GReach adj a c (n + 1)

/-- Paths with their intermediate nodes listed: GChain adj a l b holds when
l is the list of nodes visited after a on a stepwise path from a to b (so b
is the last member of l, unless l is empty and b = a). -/
inductive GChain (adj : Nat → List Nat) : Nat → List Nat → Nat → Prop where
  | nil (a : Nat) : GChain adj a [] a
  | cons {a b c : Nat} {l : List Nat} : b ∈ adj a → GChain adj b l c → GChain adj a (b :: l) c

/-- A cycle is reachable above t: some node v reachable from t through
parent edges lies on a nonempty parent-edge cycle. -/
def CycleReachable (g : Graph) (t : Nat) : Prop :=
  ∃ v n m, GReach g.par t v n ∧ 0 < m ∧ GReach g.par v v m

/-- Edge symmetry: i is a parent of j exactly when j is a child of i.
Every graph produced by dependson declarations satisfies this. -/
def SymmWf (g : Graph) : Prop :=
  ∀ i j : Nat, i ∈ g.par j ↔ j ∈ g.chl i

/-- No two distinct nodes reachable from t (through parent edges, t
included) are structurally equal Datasets.  Where this fails, the
structural-equality membership tests of is_acyclic diverge from the
identity-based object graph. -/
def DistinctAbove (g : Graph) (t : Nat) : Prop :=
  ∀ i j n m, GReach g.par t i n → GReach g.par t j m → pyEqB g i j = true → i = j

/-- The shape of the temp mark list during the depth-first walk of
is_acyclic: a stepwise parent chain starting at the queried node, with the
node on top of the stack tracked. -/
inductive Stacked (g : Graph) (root : Nat) : List Nat → Nat → Prop where
  | base : Stacked g root [root] root
  | push {l : List Nat} {top p : Nat} :
      Stacked g root l top → p ∈ g.par top → Stacked g root (l ++ [p]) p

/-- Loop body of Dataset.parents / Dataset.children: walk the direct
members, yield each unseen one, and when depth is not zero merge the
recursive traversal of each member; rec is the recursive call at the next
smaller fuel.  The accumulated output list doubles as the visited dict,
since the two always hold the same members. -/
def travLoop (rec : Int → Nat → Option (List Nat)) (depth : Int) :
    List Nat → List Nat → Option (List Nat)
  | [], out => some out
  | d :: rest, out =>
    let out1 := addUnique out d
    if depth = 0 then travLoop rec depth rest out1
    else
      match rec (depth - 1) d with
      | none => none
      | some gps => travLoop rec depth rest (gps.foldl addUnique out1)

/-- Fuelled embedding of the recursive generators Dataset.parents and
Dataset.children, over an arbitrary adjacency map (the parent map for
parents, the child map for children; the two Python methods are verbatim
copies of each other modulo that field).  depth = 0 yields direct members
only; negative depth never stops recursing, which is why fuel is needed:
the recursion has no global visited set and diverges on cyclic graphs. -/
def traverseF (adj : Nat → List Nat) : Nat → Int → Nat → Option (List Nat)
  | 0, _, _ => none
  | fuel + 1, depth, self =>
    travLoop (fun dep d => traverseF adj fuel dep d) depth (adj self) []

/-- Dataset.parents as a function of the graph. -/
def parentsF (g : Graph) : Nat → Int → Nat → Option (List Nat) :=
  fun fuel depth self => traverseF g.par fuel depth self

/-- Dataset.children as a function of the graph. -/
def childrenF (g : Graph) : Nat → Int → Nat → Option (List Nat) :=
  fun fuel depth self => traverseF g.chl fuel depth self

/-- Loop body of Dataset.roots: yield parentless direct parents, recurse
into the others and merge, deduplicating against what was already
yielded. -/
def rootsLoop (par : Nat → List Nat) (rec : Nat → Option (List Nat)) :
    List Nat → List Nat → Option (List Nat)
  | [], out => some out
  | d :: rest, out =>
    if par d = [] then rootsLoop par rec rest (addUnique out d)
    else
      match rec d with
      | none => none
      | some rs => rootsLoop par rec rest (rs.foldl addUnique out)

/-- Fuelled embedding of Dataset.roots: the parentless ancestors of a
node, found by recursive ascent. -/
def rootsF (g : Graph) : Nat → Nat → Option (List Nat)
  | 0, _ => none
  | fuel + 1, self => rootsLoop g.par (fun d => rootsF g fuel d) (g.par self) []

/-- Remove the first member structurally equal to x, mirroring
temp_marks.index(dataset) followed by del: Python list index compares with
Dataset.__eq__.  The call site in visit always finds a match, because the
node was appended after a failed membership test. -/
def removeFirstEq (g : Graph) (x : Nat) : List Nat → List Nat
  | [] => []
  | y :: rest => if pyEqB g x y then rest else y :: removeFirstEq g x rest

/-- Sequential recursion over the direct parents inside is_acyclic.visit,
threading the temp and perm mark lists and propagating a raised
CircularDependency; rec is the recursive visit at the next smaller
fuel. -/
def visitList (rec : Nat → List Nat → List Nat → Option (Except Unit (List Nat × List Nat))) :
    List Nat → List Nat → List Nat → Option (Except Unit (List Nat × List Nat))
  | [], temp, perm => some (.ok (temp, perm))
  | p :: rest, temp, perm =>
    match rec p temp perm with
    | none => none
    | some (.error e) => some (.error e)
    | some (.ok (t1, p1)) => visitList rec rest t1 p1

/-- Fuelled embedding of is_acyclic.visit: exception-driven depth-first
search through parent edges with an in-progress list (temp) and a done
list (perm).  Both membership tests use structural Dataset equality,
because visit tests with Python list membership rather than set
membership.  An error value is a raised CircularDependency. -/
def visitF (g : Graph) : Nat → Nat → List Nat → List Nat → Option (Except Unit (List Nat × List Nat))
  | 0, _, _, _ => none
  | fuel + 1, d, temp, perm =>
    if memEq g d temp then some (.error ())
    else if memEq g d perm then some (.ok (temp, perm))
    else
      match visitList (fun p t pm => visitF g fuel p t pm) (dedupList (g.par d)) (temp ++ [d]) perm with
      | none => none
      | some (.error e) => some (.error e)
      | some (.ok (t1, p1)) => some (.ok (removeFirstEq g d t1, p1 ++ [d]))

/-- Fuelled embedding of is_acyclic: run visit from the queried dataset
with empty mark lists; a raised CircularDependency is caught and turned
into false. -/
def is_acyclic (g : Graph) (fuel : Nat) (t : Nat) : Option Bool :=
  match visitF g fuel t [] [] with
  | none => none
  | some (.error _) => some false
  | some (.ok _) => some true

/-- The needsbuild classifier of Dataset.buildnext: a child with a missing
direct parent is deferred (False, PARENTMISSING); an existing child older
than some direct parent needs a rebuild (True, PARENTNEWER); a missing
child needs building (True, MISSING); otherwise the child is up to date
(False, None).  Direct parents are parents(0). -/
def needsbuildNext (g : Graph) (fs : FS) (child : Nat) : Bool × Option Reason :=
  if !((dedupList (g.par child)).all (fun p => existsD g fs p)) then
    (false, some .parentmissing)
  else if existsD g fs child && (dedupList (g.par child)).any (fun p => olderD g fs child p) then
    (true, some .parentnewer)
  else if !existsD g fs child then
    (true, some .missing)
  else
    (false, none)

/-- One examined child of the walkbranch loop in Dataset.buildnext: skip
children outside the ancestor list (membership tested with structural
Dataset equality, since ancestors is a Python list); yield on PARENTNEWER
or MISSING; raise RuntimeError on any other buildable reason; pass on
PARENTMISSING; otherwise record the up-to-date child as a new branch
unless an equal one is already queued.  The state is the pair of the
yields of this walk and the branch queue. -/
def walkStep (g : Graph) (fs : FS) (anc : List Nat)
    (st : List (Nat × Reason) × List Nat) (child : Nat) :
    Except Unit (List (Nat × Reason) × List Nat) :=
  if !memEq g child anc then .ok st
  else
    match needsbuildNext g fs child with
    | (true, some .parentnewer) => .ok (st.1 ++ [(child, .parentnewer)], st.2)
    | (true, some .missing) => .ok (st.1 ++ [(child, .missing)], st.2)
    | (true, _) => .error ()
    | (false, some .parentmissing) => .ok st
    | (false, _) => .ok (st.1, if memEq g child st.2 then st.2 else st.2 ++ [child])

/-- Sequential walk over the examined children of one stem. -/
def walkList (g : Graph) (fs : FS) (anc : List Nat) :
    List Nat → List (Nat × Reason) × List Nat → Except Unit (List (Nat × Reason) × List Nat)
  | [], st => .ok st
  | c :: rest, st =>
    match walkStep g fs anc st c with
    | .error e => .error e
    | .ok st1 => walkList g fs anc rest st1

/-- The walkbranch generator of Dataset.buildnext applied to one stem: its
examined children are the direct children of the stem, and the branch
queue may grow while walking. -/
def walkbranch (g : Graph) (fs : FS) (anc : List Nat) (stem : Nat) (branches : List Nat) :
    Except Unit (List (Nat × Reason) × List Nat) :=
  walkList g fs anc (dedupList (g.chl stem)) ([], branches)

/-- The driving loop of Dataset.buildnext: walk the head branch, filter its
yields against the built list (splice membership uses structural Dataset
equality), then drop the walked head.  The Python code interleaves the
filtering with the walk, but walkbranch never reads the built list, so
running the walk to completion first is equivalent. -/
def bnLoop (g : Graph) (fs : FS) (anc : List Nat) :
    Nat → List Nat → List Nat → List (Nat × Reason) →
    Option (Except Unit (List Nat × List (Nat × Reason)))
  | 0, _, _, _ => none
  | _ + 1, [], built, out => some (.ok (built, out))
  | fuel + 1, stem :: rest, built, out =>
    match walkbranch g fs anc stem (stem :: rest) with
    | .error e => some (.error e)
    | .ok (ys, branches1) =>
      let bo := ys.foldl
        (fun (bo : List Nat × List (Nat × Reason)) dr =>
          if memEq g dr.1 bo.1 then bo else (bo.1 ++ [dr.1], bo.2 ++ [dr]))
        (built, out)
      bnLoop g fs anc fuel branches1.tail bo.1 bo.2

/-- Fuelled embedding of Dataset.buildnext: check acyclicity (raising
CircularDependency as an error), compute the ancestor list and the root
branches, then drain the branch queue collecting (dataset, reason) yields;
the built list is seeded from the ignore argument. -/
def buildnext (g : Graph) (fs : FS) (fuel : Nat) (t : Nat) (ignore : List Nat) :
    Option (Except PyErr (List (Nat × Reason))) :=
  match is_acyclic g fuel t with
  | none => none
  | some false => some (.error .circular)
  | some true =>
    match traverseF g.par fuel (-1) t with
    | none => none
    | some anc =>
      match rootsF g fuel t with
      | none => none
      | some rts =>
        match bnLoop g fs anc fuel rts ignore [] with
        | none => none
        | some (.error _) => some (.error .runtime)
        | some (.ok (_, out)) => some (.ok out)

/-- The needsbuild classifier of buildall: an existing dataset rebuilds
when some transitive parent is missing or newer (reason PARENTNEWER); a
missing dataset builds with reason MISSING; otherwise nothing to do.
Note it scans parents(), the full transitive closure. -/
def needsbuildAll (g : Graph) (fs : FS) (fuel : Nat) (dep : Nat) : Option (Option Reason) :=
  match traverseF g.par fuel (-1) dep with
  | none => none
  | some anc =>
    if existsD g fs dep && anc.any (fun p => !existsD g fs p || olderD g fs dep p) then
      some (some .parentnewer)
    else if !existsD g fs dep then
      some (some .missing)
    else
      some none

/-- Mark update for one child in mark_children_breadthfirst: record level
i when it exceeds the recorded mark (absent counts as -1, so any level
beats it). -/
def markStep (m : List (Nat × Nat)) (child i : Nat) : List (Nat × Nat) :=
  match alGet m child with
  | none => alSet m child i
  | some iold => if iold < i then alSet m child i else m

/-- Inner loop of mark_children_breadthfirst over the in-closure children
of a dequeued node: record the popped level as the mark when it exceeds
the recorded one, and always enqueue the child at the next level. -/
def markFold (i : Nat) : List Nat → List (Nat × Nat) × List (Nat × Nat) →
    List (Nat × Nat) × List (Nat × Nat)
  | [], mq => mq
  | child :: cs, (m, q) => markFold i cs (markStep m child i, q ++ [(i + 1, child)])

/-- Fuelled queue loop of mark_children_breadthfirst: pop a (level, node)
pair, process the node's direct children that lie in the ancestor set of
the target (an identity-keyed Python set), and continue until the queue
drains.  Fuel counts pops; on a cyclic graph the queue never drains. -/
def markLoop (g : Graph) (anc : List Nat) :
    Nat → List (Nat × Nat) → List (Nat × Nat) → Option (List (Nat × Nat))
  | 0, _, _ => none
  | _ + 1, [], marks => some marks
  | fuel + 1, (i, dep) :: rest, marks =>
    let cs := (dedupList (g.chl dep)).filter (fun d => decide (d ∈ anc))
    let mq := markFold i cs (marks, [])
    markLoop g anc fuel (rest ++ mq.2) mq.1

/-- Build-order marks of buildall: breadth-first from all the roots of the
target simultaneously, over the transitive-parent closure of the
target. -/
def marksOf (g : Graph) (fuel : Nat) (t : Nat) : Option (List (Nat × Nat)) :=
  match traverseF g.par fuel (-1) t with
  | none => none
  | some anc =>
    match rootsF g fuel t with
    | none => none
    | some rts => markLoop g anc fuel (rts.map (fun r => (0, r))) []

/-- Pad the group list with empty stages up to index i and append the
entry to stage i, as the while loop over maxi does in buildall. -/
def insertAt : List (List (Nat × Reason)) → Nat → Nat × Reason → List (List (Nat × Reason))
  | [], 0, x => [[x]]
  | [], i + 1, x => [] :: insertAt [] i x
  | gs :: rest, 0, x => (gs ++ [x]) :: rest
  | gs :: rest, i + 1, x => gs :: insertAt rest i x

/-- Grouping loop of buildall: walk the marks dict in insertion order and
place each dataset that needs building into the stage of its mark. -/
def buildGroups (g : Graph) (fs : FS) (fuel : Nat) :
    List (Nat × Nat) → List (List (Nat × Reason)) → Option (List (List (Nat × Reason)))
  | [], groups => some groups
  | (dep, i) :: rest, groups =>
    match needsbuildAll g fs fuel dep with
    | none => none
    | some (some r) => buildGroups g fs fuel rest (insertAt groups i (dep, r))
    | some none => buildGroups g fs fuel rest groups

/-- Fuelled embedding of buildall: check acyclicity (CircularDependency as
an error), mark the ancestors breadth-first from the roots, group the
stale ones by mark, and finally append a singleton stage for the target
itself when it is stale or missing — always with reason MISSING, as in the
source. -/
def buildall (g : Graph) (fs : FS) (fuel : Nat) (t : Nat) :
    Option (Except PyErr (List (List (Nat × Reason)))) :=
  match is_acyclic g fuel t with
  | none => none
  | some false => some (.error .circular)
  | some true =>
    match marksOf g fuel t with
    | none => none
    | some marks =>
      match buildGroups g fs fuel marks [] with
      | none => none
      | some groups =>
        match needsbuildAll g fs fuel t with
        | none => none
        | some (some _) => some (.ok (groups ++ [[(t, .missing)]]))
        | some none => some (.ok groups)

/-- State threaded through the buildmanager executor: the filesystem, the
attempts dict keyed by dataset identity, and an instrumentation counter of
delegator invocations per dataset (not present in the source; used to
state how often steps are attempted). -/
structure ExecSt where
  fs : FS
  attempts : List (Nat × Nat)
  calls : List (Nat × Nat)

/-- A delegator builds one dataset given a reason: it transforms the
filesystem and either returns normally or raises (the error case), in
either case leaving some filesystem behind. -/
def Delegator : Type := Nat → Reason → FS → Except FS FS

/-- The onfailure policy of the executor. -/
inductive OnFailure where
  | raise
  | print
  | ignore
deriving DecidableEq

/-- Increment a counter in an identity-keyed dict. -/
def alBump (l : List (Nat × Nat)) (k : Nat) : List (Nat × Nat) :=
  alSet l k (((alGet l k).getD 0) + 1)

/-- One (dep, reason) step of the executor loop in buildmanager: skip the
step once its attempts reached max_attempts; otherwise clear the noop
flag and invoke the delegator; an exception is re-raised under the raise
policy (before the attempts bump, which the source only reaches on the
print and ignore paths) and otherwise swallowed after bumping the
attempts count. -/
def stepDep (dele : Delegator) (maxAttempts : Nat) (onf : OnFailure)
    (acc : Except ExecSt (ExecSt × Bool)) (dr : Nat × Reason) : Except ExecSt (ExecSt × Bool) :=
  match acc with
  | .error e => .error e
  | .ok (st, noop) =>
    if ((alGet st.attempts dr.1).getD 0) < maxAttempts then
      match dele dr.1 dr.2 st.fs with
      | .ok fs1 => .ok ({ st with fs := fs1, calls := alBump st.calls dr.1 }, false)
      | .error fs1 =>
        match onf with
        | .raise => .error { st with fs := fs1, calls := alBump st.calls dr.1 }
        | _ =>
          let st2 : ExecSt :=
            { fs := fs1, attempts := alBump st.attempts dr.1, calls := alBump st.calls dr.1 }
          .ok (st2, false)
    else .ok (st, noop)

/-- Run one yielded stage of buildall through the executor. -/
def runStage (dele : Delegator) (maxAttempts : Nat) (onf : OnFailure)
    (acc : Except ExecSt (ExecSt × Bool)) (stage : List (Nat × Reason)) :
    Except ExecSt (ExecSt × Bool) :=
  stage.foldl (stepDep dele maxAttempts onf) acc

/-- One pass of the executor while-loop over the stages of
buildall(target).  The stage groups are computed against the filesystem at
the start of the pass, but the generator evaluates the trailing
target-staleness check only after all groups were consumed, hence against
the then-current filesystem.  A CircularDependency from buildall
propagates out as an error. -/
def sweep (g : Graph) (dele : Delegator) (maxAttempts : Nat) (onf : OnFailure)
    (fuelP : Nat) (t : Nat) (st : ExecSt) : Option (Except ExecSt (ExecSt × Bool)) :=
  match is_acyclic g fuelP t with
  | none => none
  | some false => some (.error st)
  | some true =>
    match marksOf g fuelP t with
    | none => none
    | some marks =>
      match buildGroups g st.fs fuelP marks [] with
      | none => none
      | some groups =>
        match groups.foldl (runStage dele maxAttempts onf) (.ok (st, true)) with
        | .error e => some (.error e)
        | .ok (st1, noop1) =>
          match needsbuildAll g st1.fs fuelP t with
          | none => none
          | some (some _) => some (runStage dele maxAttempts onf (.ok (st1, noop1)) [(t, .missing)])
          | some none => some (.ok (st1, noop1))

/-- The executor while-loop of buildmanager: repeat sweeps until one sweep
performs no work (noop remains true). -/
def execLoop (g : Graph) (dele : Delegator) (maxAttempts : Nat) (onf : OnFailure)
    (fuelP : Nat) (t : Nat) : Nat → ExecSt → Option (Except ExecSt ExecSt)
  | 0, _ => none
  | fuel + 1, st =>
    match sweep g dele maxAttempts onf fuelP t st with
    | none => none
    | some (.error e) => some (.error e)
    | some (.ok (st1, noop)) =>
      if noop then some (.ok st1) else execLoop g dele maxAttempts onf fuelP t fuel st1

/-- Fuelled embedding of the executor returned by buildmanager: run the
while-loop from an empty attempts dict over the given filesystem. -/
def buildmanager (g : Graph) (fs : FS) (dele : Delegator) (t : Nat)
    (maxAttempts : Nat) (onf : OnFailure) (fuelP loopFuel : Nat) :
    Option (Except ExecSt ExecSt) :=
  execLoop g dele maxAttempts onf fuelP t loopFuel { fs := fs, attempts := [], calls := [] }

/-- The executor state carried by a normal or an exceptional outcome. -/
def exSt : Except ExecSt ExecSt → ExecSt
  | .ok s => s
  | .error s => s

/-- The worker of manager.py: invoke the step function once per loop
round while attempts remain, remembering the last returned success value;
an exception handled by a non-raising handler leaves the success value
unchanged.  The first argument gives the outcome of each successive
invocation, the Nat argument counts remaining attempts, and the result
pairs the final success value with the total invocation count. -/
def worker (fn : Nat → Except Unit Bool) : Nat → Nat → Bool → Bool × Nat
  | 0, calls, success => (success, calls)
  | rem + 1, calls, success =>
    match fn calls with
    | .ok b => worker fn rem (calls + 1) b
    | .error _ => worker fn rem (calls + 1) success

/-- The empty filesystem: no file exists. -/
def fsNone : FS := fun _ => none

/-- A two-node dependency cycle with distinct names: node 0 (a) depends on
node 1 (b) and node 1 depends on node 0. -/
def cgC : Graph :=
  dependson (dependson (mkG (fun i => if i = 0 then "a" else "b")) 0 [1]) 1 [0]

/-- A cyclic graph whose cycle is masked from is_acyclic by structural
Dataset equality: node 2 (named t) depends on nodes 0 and 1, both named x
with equal stores; node 1 depends on itself.  The depth-first walk marks
node 0 done, then skips node 1 as done because it is structurally equal to
node 0, and never sees the self-loop. -/
def cgMask : Graph :=
  dependson (dependson (mkG (fun i => if i = 2 then "t" else "x")) 2 [0, 1]) 1 [1]

/-- A target (node 1, named b) whose only ancestor (node 0, named a) is a
parentless node; with an empty filesystem node 0 is missing from disk and
nothing can produce it. -/
def cg2 : Graph :=
  dependson (mkG (fun i => if i = 0 then "a" else "b")) 1 [0]

/-- A graph where node 2 (named b) declares dependencies on two distinct
but structurally equal Datasets: nodes 0 and 1, both named x with equal
stores. -/
def cg5 : Graph :=
  dependson (dependson (mkG (fun i => if i = 2 then "b" else "x")) 2 [0]) 2 [1]

/-- A three-node chain p (node 0) below q (node 1) below target r
(node 2). -/
def cg3 : Graph :=
  dependson (dependson (mkG (fun i => if i = 0 then "p" else if i = 1 then "q" else "r")) 1 [0]) 2 [1]

/-- Filesystem for cg3 in which only the root file p exists. -/
def fs3 : FS := fun s => if s = "p" then some 0 else none

/-- The fixture graph of the test suite: raw inputs r0 to r3 are nodes 0
to 3, derived stages a0 (node 4), a1 (node 5), b0 (node 6), b1 (node 7),
c0 (node 8), c1 (node 9) and c2 (node 10), wired with the dependson
declarations of the tests. -/
def cgFix : Graph :=
  dependson
    (dependson
      (dependson
        (dependson
          (dependson
            (dependson
              (dependson
                (mkG (fun i =>
                  if i = 0 then "r0" else if i = 1 then "r1"
                  else if i = 2 then "r2" else if i = 3 then "r3"
                  else if i = 4 then "a0" else if i = 5 then "a1"
                  else if i = 6 then "b0" else if i = 7 then "b1"
                  else if i = 8 then "c0" else if i = 9 then "c1" else "c2"))
                4 [0, 1])
              5 [2])
            6 [4, 5])
          7 [5, 3])
        8 [6, 7])
      9 [7])
    10 [7]

/-- Filesystem for cgFix in which only the raw inputs exist. -/
def fsFix : FS :=
  fun s => if s = "r0" ∨ s = "r1" ∨ s = "r2" ∨ s = "r3" then some 0 else none

/-- A delegator that raises on every invocation, leaving the filesystem
unchanged. -/
def deleFail : Delegator := fun _ _ f => Except.error f

/-- Filesystem with three files u, v, w of increasing ages. -/
def fs7 : FS :=
  fun s => if s = "u" then some 1 else if s = "v" then some 2
           else if s = "w" then some 5 else none

/-- Number of delegator invocations recorded for dataset d. -/
def callsOf (st : ExecSt) (d : Nat) : Nat := (alGet st.calls d).getD 0

/-- Number of failed attempts recorded for dataset d, as read by the
attempts.get(dep, 0) guard of the executor. -/
def attemptsOf (st : ExecSt) (d : Nat) : Nat := (alGet st.attempts d).getD 0

/-- Every dataset's invocation count stays within the retry budget. -/
def CallsBound (maxA : Nat) (st : ExecSt) : Prop := ∀ d, callsOf st d ≤ maxA

/-- Under an always-failing delegator, every invocation bumps the attempts
dict, so the two counters agree and stay within the retry budget. -/
def CallsSync (maxA : Nat) (st : ExecSt) : Prop :=
  ∀ d, callsOf st d = attemptsOf st d ∧ attemptsOf st d ≤ maxA

/-- Invariant carried through the executor fold: normal states keep the
counters synchronised, exceptional states at least keep the bound. -/
def ExInv (maxA : Nat) : Except ExecSt (ExecSt × Bool) → Prop
  | .ok (st, _) => CallsSync maxA st
  | .error e => CallsBound maxA e

/-!
Lemmas about the list and association-list helpers.
-/

theorem mem_addUnique {l : List Nat} {x y : Nat} :
    y ∈ addUnique l x ↔ y ∈ l ∨ y = x := by
  unfold addUnique
  split
  · rename_i h
    constructor
    · exact fun hy => Or.inl hy
    · rintro (hy | rfl)
      · exact hy
      · exact h
  · simp [List.mem_append]

theorem addUnique_sub {l : List Nat} {x : Nat} : l ⊆ addUnique l x := by
  intro y hy
  exact mem_addUnique.mpr (Or.inl hy)

theorem addUnique_nodup {l : List Nat} {x : Nat} (h : l.Nodup) :
    (addUnique l x).Nodup := by
  unfold addUnique
  split
  · exact h
  · rename_i hx
    simpa [List.nodup_append, h] using hx

theorem mem_foldl_addUnique (ls : List Nat) :
    ∀ l y, y ∈ ls.foldl addUnique l ↔ y ∈ l ∨ y ∈ ls := by
  induction ls with
  | nil => simp
  | cons a as ih =>
    intro l y
    simp only [List.foldl_cons]
    rw [ih, mem_addUnique]
    simp [or_assoc, or_comm, or_left_comm]

theorem foldl_addUnique_sub (ls : List Nat) {l : List Nat} :
    l ⊆ ls.foldl addUnique l := by
  intro y hy
  exact (mem_foldl_addUnique ls l y).mpr (Or.inl hy)

theorem foldl_addUnique_nodup (ls : List Nat) :
    ∀ l, l.Nodup → (ls.foldl addUnique l).Nodup := by
  induction ls with
  | nil => exact fun l h => h
  | cons a as ih =>
    intro l h
    exact ih (addUnique l a) (addUnique_nodup h)

theorem mem_dedupList {l : List Nat} {y : Nat} : y ∈ dedupList l ↔ y ∈ l := by
  unfold dedupList
  rw [mem_foldl_addUnique]
  simp

theorem dedupList_nodup (l : List Nat) : (dedupList l).Nodup :=
  foldl_addUnique_nodup l [] List.nodup_nil

theorem mem_unionAdd {l ds : List Nat} {y : Nat} :
    y ∈ unionAdd l ds ↔ y ∈ l ∨ y ∈ ds := by
  unfold unionAdd
  exact mem_foldl_addUnique ds l y

theorem alGet_alSet_self (m : List (Nat × Nat)) (k v : Nat) :
    alGet (alSet m k v) k = some v := by
  induction m with
  | nil => simp [alSet, alGet]
  | cons p rest ih =>
    obtain ⟨k0, v0⟩ := p
    unfold alSet
    by_cases h : k0 = k
    · simp [h, alGet]
    · simp [h, alGet, ih]

theorem alGet_alSet_ne (m : List (Nat × Nat)) {k k' : Nat} (v : Nat) (h : k' ≠ k) :
    alGet (alSet m k v) k' = alGet m k' := by
  induction m with
  | nil => simp [alSet, alGet, Ne.symm h]
  | cons p rest ih =>
    obtain ⟨k0, v0⟩ := p
    by_cases h0 : k0 = k
    · subst h0
      simp [alSet, alGet, Ne.symm h]
    · simp only [alSet, if_neg h0, alGet]
      by_cases h1 : k0 = k'
      · simp [h1]
      · simp [h1, ih]

theorem alGet_of_mem_nodupkeys {m : List (Nat × Nat)} {k v : Nat}
    (hnd : (m.map Prod.fst).Nodup) (hm : (k, v) ∈ m) : alGet m k = some v := by
  induction m with
  | nil => simp at hm
  | cons p rest ih =>
    obtain ⟨k0, v0⟩ := p
    simp only [List.map_cons, List.nodup_cons] at hnd
    rcases List.mem_cons.mp hm with he | hm2
    · cases he
      simp [alGet]
    · have hk : k0 ≠ k := by
        rintro rfl
        exact hnd.1 (List.mem_map.mpr ⟨(k0, v), hm2, rfl⟩)
      simp [alGet, hk, ih hnd.2 hm2]

theorem alSet_keys (m : List (Nat × Nat)) (k v : Nat) :
    (alSet m k v).map Prod.fst =
      if k ∈ m.map Prod.fst then m.map Prod.fst else m.map Prod.fst ++ [k] := by
  induction m with
  | nil => simp [alSet]
  | cons p rest ih =>
    obtain ⟨k0, v0⟩ := p
    by_cases h : k0 = k
    · subst h
      simp [alSet]
    · simp only [alSet, if_neg h, List.map_cons, ih]
      by_cases hk : k ∈ rest.map Prod.fst
      · rw [if_pos hk, if_pos (List.mem_cons_of_mem _ hk)]
      · rw [if_neg hk, if_neg (by simp [List.mem_cons, hk, Ne.symm h]), List.cons_append]

theorem alSet_keys_nodup {m : List (Nat × Nat)} (k v : Nat)
    (hnd : (m.map Prod.fst).Nodup) : ((alSet m k v).map Prod.fst).Nodup := by
  rw [alSet_keys]
  by_cases hk : k ∈ m.map Prod.fst
  · simpa [hk] using hnd
  · simp [hk, List.nodup_append, hnd]

theorem pyEqB_refl (g : Graph) (x : Nat) : pyEqB g x x = true := by
  simp [pyEqB]

theorem memEq_true_iff {g : Graph} {x : Nat} {l : List Nat} :
    memEq g x l = true ↔ ∃ y ∈ l, pyEqB g x y = true := by
  simp [memEq, List.any_eq_true]

theorem memEq_of_mem {g : Graph} {x : Nat} {l : List Nat} (h : x ∈ l) :
    memEq g x l = true :=
  memEq_true_iff.mpr ⟨x, h, pyEqB_refl g x⟩

/-!
Lemmas about paths.
-/

theorem GReach.zero_eq {adj : Nat → List Nat} {a b : Nat} (h : GReach adj a b 0) : a = b := by
  cases h
  rfl

theorem GReach.single {adj : Nat → List Nat} {a b : Nat} (h : b ∈ adj a) :
    GReach adj a b 1 :=
  GReach.step (GReach.refl a) h

theorem GReach.append {adj : Nat → List Nat} {a b c : Nat} {m n : Nat}
    (h1 : GReach adj a b m) (h2 : GReach adj b c n) : GReach adj a c (m + n) := by
  induction h2 with
  | refl => exact h1
  | step h2 hedge ih => exact GReach.step ih hedge

theorem GReach.cons_step {adj : Nat → List Nat} {a b c : Nat} {n : Nat}
    (h1 : b ∈ adj a) (h2 : GReach adj b c n) : GReach adj a c (n + 1) := by
  have := GReach.append (GReach.single h1) h2
  simpa [Nat.add_comm] using this

theorem GReach.head_decomp {adj : Nat → List Nat} :
    ∀ {n a c : Nat}, GReach adj a c (n + 1) → ∃ b ∈ adj a, GReach adj b c n := by
  intro n
  induction n with
  | zero =>
    intro a c h
    cases h with
    | step h0 hedge =>
      cases h0
      exact ⟨c, hedge, GReach.refl c⟩
  | succ n ih =>
    intro a c h
    cases h with
    | step h0 hedge =>
      obtain ⟨b, hb, hr⟩ := ih h0
      exact ⟨b, hb, GReach.step hr hedge⟩

theorem GReach.flip_par {g : Graph} (hsym : SymmWf g) {a b : Nat} {n : Nat}
    (h : GReach g.par a b n) : GReach g.chl b a n := by
  induction h with
  | refl => exact GReach.refl _
  | step h0 hedge ih =>
    rename_i x y m
    exact GReach.cons_step ((hsym y x).mp hedge) ih

theorem GReach.flip_chl {g : Graph} (hsym : SymmWf g) {a b : Nat} {n : Nat}
    (h : GReach g.chl a b n) : GReach g.par b a n := by
  induction h with
  | refl => exact GReach.refl _
  | step h0 hedge ih =>
    rename_i x y m
    exact GReach.cons_step ((hsym x y).mpr hedge) ih

theorem GChain.toReach {adj : Nat → List Nat} {a b : Nat} {l : List Nat}
    (h : GChain adj a l b) : GReach adj a b l.length := by
  induction h with
  | nil => exact GReach.refl _
  | cons hedge h0 ih => exact GReach.cons_step hedge ih

theorem GChain.snoc {adj : Nat → List Nat} {a b c : Nat} {l : List Nat}
    (h : GChain adj a l b) (hedge : c ∈ adj b) : GChain adj a (l ++ [c]) c := by
  induction h with
  | nil => exact GChain.cons hedge (GChain.nil c)
  | cons he h0 ih => exact GChain.cons he (ih hedge)

theorem GChain.ofReach {adj : Nat → List Nat} {a b : Nat} {n : Nat}
    (h : GReach adj a b n) : ∃ l, GChain adj a l b ∧ l.length = n := by
  induction h with
  | refl => exact ⟨[], GChain.nil _, rfl⟩
  | step h0 hedge ih =>
    obtain ⟨l, hc, hlen⟩ := ih
    exact ⟨l ++ [_], hc.snoc hedge, by simp [hlen]⟩

theorem GChain.glue {adj : Nat → List Nat} {a b c : Nat} {l1 l2 : List Nat}
    (h1 : GChain adj a l1 b) (h2 : GChain adj b l2 c) : GChain adj a (l1 ++ l2) c := by
  induction h1 with
  | nil => exact h2
  | cons he h0 ih => exact GChain.cons he (ih h2)

theorem GChain.split {adj : Nat → List Nat} {l1 : List Nat} :
    ∀ {a c : Nat} {l2 : List Nat}, GChain adj a (l1 ++ l2) c →
      ∃ b, GChain adj a l1 b ∧ GChain adj b l2 c := by
  induction l1 with
  | nil => exact fun h => ⟨_, GChain.nil _, h⟩
  | cons x l1 ih =>
    intro a c l2 h
    cases h with
    | cons hedge h0 =>
      obtain ⟨b, hb1, hb2⟩ := ih h0
      exact ⟨b, GChain.cons hedge hb1, hb2⟩

theorem GChain.mem_subset {adj : Nat → List Nat} {a c : Nat} {l : List Nat}
    (h : GChain adj a l c) {S : List Nat} (hcl : ∀ i ∈ S, ∀ j ∈ adj i, j ∈ S)
    (ha : a ∈ S) : ∀ x ∈ l, x ∈ S := by
  induction h with
  | nil => simp
  | cons hedge h0 ih =>
    rename_i p q r lr
    intro x hx
    rcases List.mem_cons.mp hx with rfl | hx2
    · exact hcl p ha x hedge
    · exact ih (hcl p ha q hedge) x hx2

theorem GChain.last_has_edge {adj : Nat → List Nat} {a c : Nat} {l : List Nat}
    (h : GChain adj a l c) (hne : l ≠ []) : ∃ p, c ∈ adj p := by
  induction h with
  | nil => exact absurd rfl hne
  | cons hedge h0 ih =>
    rename_i p q r lr
    cases lr with
    | nil =>
      cases h0
      exact ⟨p, hedge⟩
    | cons y ys => exact ih (by simp)

theorem reach_mem_closed {adj : Nat → List Nat} {S : List Nat}
    (hcl : ∀ i ∈ S, ∀ j ∈ adj i, j ∈ S) {t x : Nat} {n : Nat} (ht : t ∈ S)
    (h : GReach adj t x n) : x ∈ S := by
  induction h with
  | refl => exact ht
  | step h0 hedge ih => exact hcl _ ih _ hedge

theorem rank_bound {adj : Nat → List Nat} {rk : Nat → Nat}
    (hrk : ∀ b c, c ∈ adj b → rk c < rk b) {a b : Nat} {n : Nat}
    (h : GReach adj a b n) : rk b + n ≤ rk a := by
  induction h with
  | refl => simp
  | step h0 hedge ih =>
    rename_i x y m
    have := hrk _ _ hedge
    omega

theorem noCycle_of_rank {adj : Nat → List Nat} {rk : Nat → Nat}
    (hrk : ∀ b c, c ∈ adj b → rk c < rk b) {v : Nat} {m : Nat} (hm : 0 < m) :
    ¬GReach adj v v m := by
  intro h
  have := rank_bound hrk h
  omega

theorem noCycleReachable_of_rank {g : Graph} (rk : Nat → Nat)
    (hrk : ∀ b c, c ∈ g.par b → rk c < rk b) (t : Nat) : ¬CycleReachable g t := by
  rintro ⟨v, n, m, _, hm, hcyc⟩
  exact noCycle_of_rank hrk hm hcyc

theorem GReach.pump {adj : Nat → List Nat} {v : Nat} {m : Nat}
    (h : GReach adj v v m) : ∀ j, GReach adj v v (j * m) := by
  intro j
  induction j with
  | zero =>
    rw [Nat.zero_mul]
    exact GReach.refl v
  | succ j ih =>
    have := GReach.append ih h
    simpa [Nat.succ_mul] using this

/-!
Lemmas about dependson and edge symmetry.
-/

theorem dependson_par_self (g : Graph) (self : Nat) (ds : List Nat) :
    (dependson g self ds).par self = unionAdd (g.par self) ds := by
  simp [dependson]

theorem symm_mkG (nm : Nat → String) : SymmWf (mkG nm) := by
  intro i j
  simp [mkG]

theorem symm_dependson {g : Graph} (hs : SymmWf g) (self : Nat) (ds : List Nat) :
    SymmWf (dependson g self ds) := by
  intro i j
  simp only [dependson]
  by_cases hj : j = self
  · subst hj
    rw [if_pos rfl]
    by_cases hi : i ∈ ds
    · rw [if_pos hi]
      constructor
      · intro _
        exact mem_addUnique.mpr (Or.inr rfl)
      · intro _
        exact mem_unionAdd.mpr (Or.inr hi)
    · rw [if_neg hi]
      constructor
      · intro h
        rcases mem_unionAdd.mp h with h2 | h2
        · exact (hs i j).mp h2
        · exact absurd h2 hi
      · intro h
        exact mem_unionAdd.mpr (Or.inl ((hs i j).mpr h))
  · rw [if_neg hj]
    by_cases hi : i ∈ ds
    · rw [if_pos hi]
      constructor
      · intro h
        exact mem_addUnique.mpr (Or.inl ((hs i j).mp h))
      · intro h
        rcases mem_addUnique.mp h with h2 | h2
        · exact (hs i j).mpr h2
        · exact absurd h2 hj
    · rw [if_neg hi]
      exact hs i j

/-!
Lemmas about group ages.
-/

theorem lmax_spec : ∀ {l : List Nat} {m : Nat}, lmax l = some m → m ∈ l ∧ ∀ x ∈ l, x ≤ m := by
  intro l
  induction l with
  | nil => intro m h; simp [lmax] at h
  | cons x xs ih =>
    intro m h
    cases hx : lmax xs with
    | none =>
      cases xs with
      | nil =>
        simp [lmax] at h
        subst h
        simp
      | cons y ys => simp [lmax] at hx
    | some m' =>
      simp only [lmax, hx, Option.some.injEq] at h
      obtain ⟨hmem, hbound⟩ := ih hx
      subst h
      constructor
      · rcases Nat.le_total x m' with hle | hle
        · rw [Nat.max_eq_right hle]
          exact List.mem_cons_of_mem _ hmem
        · rw [Nat.max_eq_left hle]
          exact List.mem_cons_self _ _
      · intro y hy
        rcases List.mem_cons.mp hy with h2 | h2
        · subst h2
          exact Nat.le_max_left _ _
        · exact le_trans (hbound y h2) (Nat.le_max_right _ _)

theorem lmin_spec : ∀ {l : List Nat} {m : Nat}, lmin l = some m → m ∈ l ∧ ∀ x ∈ l, m ≤ x := by
  intro l
  induction l with
  | nil => intro m h; simp [lmin] at h
  | cons x xs ih =>
    intro m h
    cases hx : lmin xs with
    | none =>
      cases xs with
      | nil =>
        simp [lmin] at h
        subst h
        simp
      | cons y ys => simp [lmin] at hx
    | some m' =>
      simp only [lmin, hx, Option.some.injEq] at h
      obtain ⟨hmem, hbound⟩ := ih hx
      subst h
      constructor
      · rcases Nat.le_total x m' with hle | hle
        · rw [Nat.min_eq_left hle]
          exact List.mem_cons_self _ _
        · rw [Nat.min_eq_right hle]
          exact List.mem_cons_of_mem _ hmem
      · intro y hy
        rcases List.mem_cons.mp hy with h2 | h2
        · subst h2
          exact Nat.min_le_left _ _
        · exact le_trans (Nat.min_le_right _ _) (hbound y h2)

theorem lmax_isSome {l : List Nat} (h : l ≠ []) : (lmax l).isSome := by
  cases l with
  | nil => exact absurd rfl h
  | cons x xs => simp [lmax]

theorem lmin_isSome {l : List Nat} (h : l ≠ []) : (lmin l).isSome := by
  cases l with
  | nil => exact absurd rfl h
  | cons x xs => simp [lmin]

theorem agesOf_isSome {fs : FS} : ∀ {ms : List String}, (∀ m ∈ ms, (fs m).isSome) →
    ∃ l, agesOf fs ms = some l := by
  intro ms
  induction ms with
  | nil => exact fun _ => ⟨[], rfl⟩
  | cons x xs ih =>
    intro hex
    obtain ⟨a, ha⟩ := Option.isSome_iff_exists.mp (hex x (List.mem_cons_self _ _))
    obtain ⟨l, hl⟩ := ih (fun m hm => hex m (List.mem_cons_of_mem _ hm))
    exact ⟨a :: l, by simp [agesOf, ha, hl]⟩

theorem agesOf_mem {fs : FS} : ∀ {ms : List String} {l : List Nat}, agesOf fs ms = some l →
    ∀ a, a ∈ l ↔ ∃ x ∈ ms, fs x = some a := by
  intro ms
  induction ms with
  | nil =>
    intro l h a
    simp only [agesOf, Option.some.injEq] at h
    subst h
    simp
  | cons x xs ih =>
    intro l h a
    simp only [agesOf] at h
    cases hx : fs x with
    | none => rw [hx] at h; cases h
    | some b =>
      rw [hx] at h
      cases hxs : agesOf fs xs with
      | none => rw [hxs] at h; cases h
      | some rest =>
        rw [hxs] at h
        cases h
        constructor
        · intro hmem
          rcases List.mem_cons.mp hmem with rfl | hmem2
          · exact ⟨x, List.mem_cons_self _ _, hx⟩
          · obtain ⟨y, hy, hfy⟩ := (ih hxs a).mp hmem2
            exact ⟨y, List.mem_cons_of_mem _ hy, hfy⟩
        · rintro ⟨y, hy, hfy⟩
          rcases List.mem_cons.mp hy with rfl | hy2
          · rw [hx] at hfy
            cases hfy
            exact List.mem_cons_self _ _
          · exact List.mem_cons_of_mem _ ((ih hxs a).mpr ⟨y, hy2, hfy⟩)

theorem agesOf_ne_nil {fs : FS} : ∀ {ms : List String} {l : List Nat},
    agesOf fs ms = some l → ms ≠ [] → l ≠ [] := by
  intro ms l h hne
  cases ms with
  | nil => exact absurd rfl hne
  | cons x xs =>
    simp only [agesOf] at h
    cases hx : fs x with
    | none => rw [hx] at h; cases h
    | some b =>
      rw [hx] at h
      cases hxs : agesOf fs xs with
      | none => rw [hxs] at h; cases h
      | some rest =>
        rw [hxs] at h
        cases h
        simp

/-- Claim C5, counterexample: nodes 0 and 1 of cg5 are structurally equal
Datasets (equal name and store) yet both are members of the parent set of
node 2 after the two dependson declarations, so membership of the edge
sets does not use Dataset equality: equal datasets are not treated as the
same member (the second declaration would otherwise have been absorbed).
parents(0) also yields both. -/
theorem claim_C5_counterexample :
    pyEqB cg5 0 1 = true ∧ (0 : Nat) ≠ 1 ∧ cg5.par 2 = [0, 1] ∧
      dedupList (cg5.par 2) = [0, 1] := by
  decide

/-- Claim C5, amended: Dataset equality holds exactly when the names and
the metadata stores agree, but the parent and child sets are keyed by
object identity, not by this equality: declaring a dependency on j inserts
j into the parent set of b unless j itself (the identical object) is
already a member, so a distinct but structurally equal dataset becomes a
second member of the edge set. -/
theorem claim_C5 (g : Graph) (i j b : Nat) :
    (pyEqB g i j = true ↔ (g.name i = g.name j ∧ g.store i = g.store j)) ∧
    ((dependson g b [j]).par b = if j ∈ g.par b then g.par b else g.par b ++ [j]) := by
  constructor
  · simp [pyEqB]
  · simp [dependson, unionAdd, addUnique]

/-- Claim C6: after b.dependson(a), a is a member of b.parents(0) and b is
a member of a.children(0) — the edge is inserted into both sets by the one
operation — and re-declaring an already existing edge is a no-op: the
graph is unchanged, so nothing is duplicated and nothing is raised. -/
theorem claim_C6 (g : Graph) (a b : Nat) :
    a ∈ dedupList ((dependson g b [a]).par b) ∧
    b ∈ dedupList ((dependson g b [a]).chl a) ∧
    (a ∈ g.par b → b ∈ g.chl a → dependson g b [a] = g) := by
  refine ⟨?_, ?_, ?_⟩
  · rw [mem_dedupList]
    simp only [dependson, if_pos rfl]
    exact mem_unionAdd.mpr (Or.inr (List.mem_singleton.mpr rfl))
  · rw [mem_dedupList]
    simp only [dependson, if_pos (List.mem_singleton.mpr rfl)]
    exact mem_addUnique.mpr (Or.inr rfl)
  · intro h1 h2
    cases g with
    | mk nm st pr ch =>
      simp only [dependson, Graph.mk.injEq, true_and]
      constructor
      · funext i
        by_cases hi : i = b
        · subst hi
          simp [unionAdd, addUnique, h1]
        · simp [hi]
      · funext i
        by_cases hi : i ∈ [a]
        · rw [List.mem_singleton] at hi
          subst hi
          simp [addUnique, h2]
        · rw [List.mem_singleton] at hi
          simp [hi]

/-- Claim C6, witness: in cg2 the edge from node 0 to node 1 already
exists, and re-declaring it leaves the graph unchanged. -/
theorem claim_C6_witness : dependson cg2 1 [0] = cg2 :=
  (claim_C6 cg2 0 1).2.2 (by decide) (by decide)

/-- Claim C7: for nonempty groups whose members all exist on disk,
is_older_than is defined and returns true exactly when every member of the
first group has a strictly smaller mtime than every member of the second
group, i.e. when the greatest mtime of the first is below the least mtime
of the second; overlapping age ranges therefore give false. -/
theorem claim_C7 (fs : FS) (g1 g2 : List String) (h1 : g1 ≠ []) (h2 : g2 ≠ [])
    (hex1 : ∀ m ∈ g1, (fs m).isSome) (hex2 : ∀ m ∈ g2, (fs m).isSome) :
    (is_older_than fs g1 g2).isSome ∧
    (is_older_than fs g1 g2 = some true ↔
      ∀ x ∈ g1, ∀ y ∈ g2, ∃ a b, fs x = some a ∧ fs y = some b ∧ a < b) := by
  obtain ⟨l1, hl1⟩ := agesOf_isSome hex1
  obtain ⟨l2, hl2⟩ := agesOf_isSome hex2
  have hne1 := agesOf_ne_nil hl1 h1
  have hne2 := agesOf_ne_nil hl2 h2
  obtain ⟨A, hA⟩ := Option.isSome_iff_exists.mp (lmax_isSome hne1)
  obtain ⟨B, hB⟩ := Option.isSome_iff_exists.mp (lmin_isSome hne2)
  have hmax : max_age fs g1 = some A := by simp [max_age, hl1, hA]
  have hmin : min_age fs g2 = some B := by simp [min_age, hl2, hB]
  have hio : is_older_than fs g1 g2 = some (decide (A < B)) := by
    simp [is_older_than, hmax, hmin]
  obtain ⟨hAmem, hAbound⟩ := lmax_spec hA
  obtain ⟨hBmem, hBbound⟩ := lmin_spec hB
  constructor
  · simp [hio]
  · rw [hio]
    constructor
    · intro htrue x hx y hy
      have hAB : A < B := by simpa using htrue
      obtain ⟨a, hfa⟩ := Option.isSome_iff_exists.mp (hex1 x hx)
      obtain ⟨b, hfb⟩ := Option.isSome_iff_exists.mp (hex2 y hy)
      have ha1 : a ∈ l1 := (agesOf_mem hl1 a).mpr ⟨x, hx, hfa⟩
      have hb2 : b ∈ l2 := (agesOf_mem hl2 b).mpr ⟨y, hy, hfb⟩
      exact ⟨a, b, hfa, hfb,
        lt_of_le_of_lt (hAbound a ha1) (lt_of_lt_of_le hAB (hBbound b hb2))⟩
    · intro hall
      obtain ⟨x, hx, hfx⟩ := (agesOf_mem hl1 A).mp hAmem
      obtain ⟨y, hy, hfy⟩ := (agesOf_mem hl2 B).mp hBmem
      obtain ⟨a, b, hfa, hfb, hab⟩ := hall x hx y hy
      rw [hfx] at hfa
      rw [hfy] at hfb
      cases hfa
      cases hfb
      simpa using hab

/-- Claim C7, witness: the group of files u and v (ages 1 and 2) is older
than the singleton group of file w (age 5). -/
theorem claim_C7_witness : is_older_than fs7 ["u", "v"] ["w"] = some true :=
  ((claim_C7 fs7 ["u", "v"] ["w"] (by decide) (by decide) (by decide) (by decide)).2).mpr
    (by
      intro x hx y hy
      rw [List.mem_singleton] at hy
      subst hy
      rcases List.mem_cons.mp hx with h | h
      · subst h
        exact ⟨1, 5, rfl, rfl, by norm_num⟩
      · rw [List.mem_singleton] at h
        subst h
        exact ⟨2, 5, rfl, rfl, by norm_num⟩)

/-!
Lemmas about the parents and children traversals.
-/

theorem travLoop_mono {rec : Int → Nat → Option (List Nat)} {depth : Int} :
    ∀ {l out out' : List Nat}, travLoop rec depth l out = some out' → out ⊆ out' := by
  intro l
  induction l with
  | nil =>
    intro out out' h
    simp only [travLoop, Option.some.injEq] at h
    subst h
    exact fun x hx => hx
  | cons d rest ih =>
    intro out out' h
    simp only [travLoop] at h
    by_cases hd : depth = 0
    · rw [if_pos hd] at h
      exact fun x hx => ih h (addUnique_sub hx)
    · rw [if_neg hd] at h
      cases hrec : rec (depth - 1) d with
      | none => rw [hrec] at h; cases h
      | some gps =>
        rw [hrec] at h
        exact fun x hx => ih h (foldl_addUnique_sub gps (addUnique_sub hx))

theorem travLoop_some_sub {rec : Int → Nat → Option (List Nat)} {depth : Int}
    (hd : depth ≠ 0) :
    ∀ {l out out' : List Nat}, travLoop rec depth l out = some out' →
      ∀ y ∈ l, ∃ o, rec (depth - 1) y = some o := by
  intro l
  induction l with
  | nil => intro out out' _ y hy; simp at hy
  | cons d rest ih =>
    intro out out' h y hy
    simp only [travLoop, if_neg hd] at h
    cases hrec : rec (depth - 1) d with
    | none => rw [hrec] at h; cases h
    | some gps =>
      rw [hrec] at h
      rcases List.mem_cons.mp hy with rfl | hy2
      · exact ⟨gps, hrec⟩
      · exact ih h y hy2

theorem travLoop_mem_elem {rec : Int → Nat → Option (List Nat)} {depth : Int} :
    ∀ {l out out' : List Nat}, travLoop rec depth l out = some out' →
      ∀ y ∈ l, y ∈ out' := by
  intro l
  induction l with
  | nil => intro out out' _ y hy; simp at hy
  | cons d rest ih =>
    intro out out' h y hy
    simp only [travLoop] at h
    by_cases hd : depth = 0
    · rw [if_pos hd] at h
      rcases List.mem_cons.mp hy with rfl | hy2
      · exact travLoop_mono h (mem_addUnique.mpr (Or.inr rfl))
      · exact ih h y hy2
    · rw [if_neg hd] at h
      cases hrec : rec (depth - 1) d with
      | none => rw [hrec] at h; cases h
      | some gps =>
        rw [hrec] at h
        rcases List.mem_cons.mp hy with rfl | hy2
        · exact travLoop_mono h (foldl_addUnique_sub gps (mem_addUnique.mpr (Or.inr rfl)))
        · exact ih h y hy2

theorem travLoop_mem_sub {rec : Int → Nat → Option (List Nat)} {depth : Int}
    (hd : depth ≠ 0) :
    ∀ {l out out' : List Nat}, travLoop rec depth l out = some out' →
      ∀ y ∈ l, ∀ o, rec (depth - 1) y = some o → ∀ x ∈ o, x ∈ out' := by
  intro l
  induction l with
  | nil => intro out out' _ y hy; simp at hy
  | cons d rest ih =>
    intro out out' h y hy o ho x hx
    simp only [travLoop, if_neg hd] at h
    cases hrec : rec (depth - 1) d with
    | none => rw [hrec] at h; cases h
    | some gps =>
      rw [hrec] at h
      rcases List.mem_cons.mp hy with rfl | hy2
      · rw [ho] at hrec
        cases hrec
        exact travLoop_mono h ((mem_foldl_addUnique o _ x).mpr (Or.inr hx))
      · exact ih h y hy2 o ho x hx

theorem travLoop_mem_inv {rec : Int → Nat → Option (List Nat)} {depth : Int} :
    ∀ {l out out' : List Nat}, travLoop rec depth l out = some out' →
      ∀ x ∈ out', x ∈ out ∨ x ∈ l ∨
        ∃ y ∈ l, ∃ o, rec (depth - 1) y = some o ∧ x ∈ o := by
  intro l
  induction l with
  | nil =>
    intro out out' h x hx
    simp only [travLoop, Option.some.injEq] at h
    subst h
    exact Or.inl hx
  | cons d rest ih =>
    intro out out' h x hx
    simp only [travLoop] at h
    by_cases hd : depth = 0
    · rw [if_pos hd] at h
      rcases ih h x hx with h2 | h2 | h2
      · rcases mem_addUnique.mp h2 with h3 | rfl
        · exact Or.inl h3
        · exact Or.inr (Or.inl (List.mem_cons_self _ _))
      · exact Or.inr (Or.inl (List.mem_cons_of_mem _ h2))
      · obtain ⟨y, hy, o, ho, hxo⟩ := h2
        exact Or.inr (Or.inr ⟨y, List.mem_cons_of_mem _ hy, o, ho, hxo⟩)
    · rw [if_neg hd] at h
      cases hrec : rec (depth - 1) d with
      | none => rw [hrec] at h; cases h
      | some gps =>
        rw [hrec] at h
        rcases ih h x hx with h2 | h2 | h2
        · rcases (mem_foldl_addUnique gps _ x).mp h2 with h3 | h3
          · rcases mem_addUnique.mp h3 with h4 | rfl
            · exact Or.inl h4
            · exact Or.inr (Or.inl (List.mem_cons_self _ _))
          · exact Or.inr (Or.inr ⟨d, List.mem_cons_self _ _, gps, hrec, h3⟩)
        · exact Or.inr (Or.inl (List.mem_cons_of_mem _ h2))
        · obtain ⟨y, hy, o, ho, hxo⟩ := h2
          exact Or.inr (Or.inr ⟨y, List.mem_cons_of_mem _ hy, o, ho, hxo⟩)

theorem travLoop_nodup {rec : Int → Nat → Option (List Nat)} {depth : Int} :
    ∀ {l out out' : List Nat}, travLoop rec depth l out = some out' →
      out.Nodup → out'.Nodup := by
  intro l
  induction l with
  | nil =>
    intro out out' h hnd
    simp only [travLoop, Option.some.injEq] at h
    subst h
    exact hnd
  | cons d rest ih =>
    intro out out' h hnd
    simp only [travLoop] at h
    by_cases hd : depth = 0
    · rw [if_pos hd] at h
      exact ih h (addUnique_nodup hnd)
    · rw [if_neg hd] at h
      cases hrec : rec (depth - 1) d with
      | none => rw [hrec] at h; cases h
      | some gps =>
        rw [hrec] at h
        exact ih h (foldl_addUnique_nodup gps _ (addUnique_nodup hnd))

theorem travLoop_depth0 {rec : Int → Nat → Option (List Nat)} :
    ∀ (l out : List Nat), travLoop rec 0 l out = some (l.foldl addUnique out) := by
  intro l
  induction l with
  | nil => intro out; rfl
  | cons d rest ih =>
    intro out
    simp only [travLoop, if_pos rfl, List.foldl_cons]
    exact ih (addUnique out d)

theorem traverse_depth0 (adj : Nat → List Nat) (f : Nat) (self : Nat) :
    traverseF adj (f + 1) 0 self = some (dedupList (adj self)) := by
  simp only [traverseF]
  exact travLoop_depth0 (adj self) []

theorem traverse_nodup {adj : Nat → List Nat} {f : Nat} {depth : Int} {self : Nat}
    {out : List Nat} (h : traverseF adj f depth self = some out) : out.Nodup := by
  cases f with
  | zero => cases h
  | succ f =>
    simp only [traverseF] at h
    exact travLoop_nodup h List.nodup_nil

theorem traverse_sound {adj : Nat → List Nat} :
    ∀ {f : Nat} {depth : Int} {self : Nat} {out : List Nat},
      traverseF adj f depth self = some out →
      ∀ x ∈ out, ∃ n, 0 < n ∧ GReach adj self x n := by
  intro f
  induction f with
  | zero => intro depth self out h; cases h
  | succ f ih =>
    intro depth self out h x hx
    simp only [traverseF] at h
    rcases travLoop_mem_inv h x hx with h2 | h2 | h2
    · simp at h2
    · exact ⟨1, Nat.one_pos, GReach.single h2⟩
    · obtain ⟨y, hy, o, ho, hxo⟩ := h2
      obtain ⟨n, hn, hr⟩ := ih ho x hxo
      exact ⟨n + 1, Nat.succ_pos n, GReach.cons_step hy hr⟩

theorem traverse_bound {adj : Nat → List Nat} :
    ∀ {f : Nat} {depth : Int} {self : Nat} {out : List Nat}, depth < 0 →
      traverseF adj f depth self = some out →
      ∀ x n, GReach adj self x n → n < f := by
  intro f
  induction f with
  | zero => intro depth self out _ h; cases h
  | succ f ih =>
    intro depth self out hd h x n hr
    cases n with
    | zero => exact Nat.succ_pos f
    | succ n =>
      obtain ⟨b, hb, hr2⟩ := GReach.head_decomp hr
      simp only [traverseF] at h
      obtain ⟨o, ho⟩ := travLoop_some_sub (by omega) h b hb
      have := ih (by omega) ho x n hr2
      omega

theorem traverse_noCycle {adj : Nat → List Nat} {f : Nat} {depth : Int} {self : Nat}
    {out : List Nat} (hd : depth < 0) (h : traverseF adj f depth self = some out) :
    ¬∃ v k m, GReach adj self v k ∧ 0 < m ∧ GReach adj v v m := by
  rintro ⟨v, k, m, hreach, hm, hcyc⟩
  have hbig : GReach adj self v (k + f * m) := GReach.append hreach (hcyc.pump f)
  have := traverse_bound hd h v (k + f * m) hbig
  have : f ≤ f * m := Nat.le_mul_of_pos_right f hm
  omega

theorem traverse_complete {adj : Nat → List Nat} :
    ∀ {f : Nat} {depth : Int} {self : Nat} {out : List Nat}, depth < 0 →
      traverseF adj f depth self = some out →
      ∀ x n, GReach adj self x (n + 1) → x ∈ out := by
  intro f
  induction f with
  | zero => intro depth self out _ h; cases h
  | succ f ih =>
    intro depth self out hd h x n hr
    obtain ⟨b, hb, hr2⟩ := GReach.head_decomp hr
    simp only [traverseF] at h
    cases n with
    | zero =>
      cases hr2.zero_eq
      exact travLoop_mem_elem h x hb
    | succ n =>
      obtain ⟨o, ho⟩ := travLoop_some_sub (by omega) h b hb
      have hxo : x ∈ o := ih (by omega) ho x n hr2
      exact travLoop_mem_sub (by omega) h b hb o ho x hxo

theorem travLoop_suff {rec : Int → Nat → Option (List Nat)} {depth : Int} :
    ∀ {l : List Nat}, (depth ≠ 0 → ∀ y ∈ l, ∃ o, rec (depth - 1) y = some o) →
      ∀ out, ∃ out', travLoop rec depth l out = some out' := by
  intro l
  induction l with
  | nil => intro _ out; exact ⟨out, rfl⟩
  | cons d rest ih =>
    intro hsub out
    by_cases hd : depth = 0
    · obtain ⟨out', hout'⟩ := ih (fun h0 => absurd hd h0) (addUnique out d)
      exact ⟨out', by simp only [travLoop, if_pos hd]; exact hout'⟩
    · obtain ⟨o, ho⟩ := hsub hd d (List.mem_cons_self _ _)
      obtain ⟨out', hout'⟩ :=
        ih (fun h0 y hy => hsub h0 y (List.mem_cons_of_mem _ hy)) (o.foldl addUnique (addUnique out d))
      refine ⟨out', ?_⟩
      simp only [travLoop, if_neg hd, ho]
      exact hout'

theorem traverse_suff {adj : Nat → List Nat} :
    ∀ {f : Nat} {self : Nat}, (∀ x n, GReach adj self x n → n < f) →
      ∀ depth, ∃ out, traverseF adj f depth self = some out := by
  intro f
  induction f with
  | zero =>
    intro self hb _
    exact absurd (hb self 0 (GReach.refl self)) (by omega)
  | succ f ih =>
    intro self hb depth
    have hsub : depth ≠ 0 → ∀ y ∈ adj self, ∃ o, traverseF adj f (depth - 1) y = some o := by
      intro _ y hy
      have hby : ∀ x n, GReach adj y x n → n < f := by
        intro x n hr
        have := hb x (n + 1) (GReach.cons_step hy hr)
        omega
      exact ih hby (depth - 1)
    obtain ⟨out', hout'⟩ := travLoop_suff hsub []
    exact ⟨out', by simp only [traverseF]; exact hout'⟩

theorem duplicate_split {x : Nat} : ∀ {l : List Nat}, l.Duplicate x →
    ∃ l1 l2 l3, l = l1 ++ (x :: (l2 ++ (x :: l3))) := by
  intro l
  induction l with
  | nil => intro hdup; cases hdup
  | cons y ys ih =>
    intro hdup
    cases hdup with
    | cons_mem hmem =>
      obtain ⟨s, t, rfl⟩ := List.append_of_mem hmem
      exact ⟨[], s, t, rfl⟩
    | cons_duplicate hdup2 =>
      obtain ⟨l1, l2, l3, he⟩ := ih hdup2
      exact ⟨y :: l1, l2, l3, by rw [he]; rfl⟩

theorem chain_dup_cycle {adj : Nat → List Nat} {t v : Nat} {l : List Nat}
    (hch : GChain adj t l v) (hdup : ¬l.Nodup) :
    ∃ a i m, GReach adj t a i ∧ 0 < m ∧ GReach adj a a m := by
  obtain ⟨a, hdupa⟩ := List.exists_duplicate_iff_not_nodup.mpr hdup
  obtain ⟨l1, l2, l3, rfl⟩ := duplicate_split hdupa
  obtain ⟨b1, ch1, ch2⟩ := @GChain.split _ l1 _ _ _ hch
  cases ch2 with
  | cons hedge1 ch3 =>
    obtain ⟨b2, ch4, ch5⟩ := @GChain.split _ l2 _ _ _ ch3
    cases ch5 with
    | cons hedge2 ch6 =>
      have hcyc : GChain adj a (l2 ++ [a]) a := ch4.snoc hedge2
      have hreach : GChain adj t (l1 ++ [a]) a := ch1.snoc hedge1
      refine ⟨a, (l1 ++ [a]).length, (l2 ++ [a]).length, hreach.toReach, ?_, hcyc.toReach⟩
      simp

theorem chain_bound_of_acyclic {adj : Nat → List Nat} {t : Nat} {dom : List Nat}
    (hdom : ∀ i ∈ dom, ∀ j ∈ adj i, j ∈ dom) (ht : t ∈ dom)
    (hacyc : ¬∃ v k m, GReach adj t v k ∧ 0 < m ∧ GReach adj v v m) :
    ∀ x n, GReach adj t x n → n < dom.length + 1 := by
  intro x n hr
  by_contra hge
  push_neg at hge
  obtain ⟨l, hch, hlen⟩ := GChain.ofReach hr
  have hsub : ∀ y ∈ l, y ∈ dom := hch.mem_subset hdom ht
  have hnotnd : ¬l.Nodup := by
    intro hnd
    have := (List.subperm_of_subset hnd hsub).length_le
    omega
  obtain ⟨a, i, m, h1, h2, h3⟩ := chain_dup_cycle hch hnotnd
  exact hacyc ⟨a, i, m, h1, h2, h3⟩

/-- Claim C8, counterexample: on the two-node cyclic graph cgC the
unbounded parents traversal does not terminate for any amount of fuel —
the visited dict is local to each recursive generator and does not stop
the recursion — so the traversal does not terminate on every graph. -/
theorem claim_C8_counterexample :
    (0 ∈ cgC.par 1 ∧ 1 ∈ cgC.par 0) ∧ ∀ fuel, parentsF cgC fuel (-1) 0 = none := by
  constructor
  · decide
  · have key : ∀ fuel, ∀ d : Int, d < 0 →
        traverseF cgC.par fuel d 0 = none ∧ traverseF cgC.par fuel d 1 = none := by
      intro fuel
      induction fuel with
      | zero => exact fun d _ => ⟨rfl, rfl⟩
      | succ f ih =>
        intro d hd
        have hdne : ¬(d = 0) := by omega
        have hd1 : d - 1 < 0 := by omega
        have hp0 : cgC.par 0 = [1] := by decide
        have hp1 : cgC.par 1 = [0] := by decide
        constructor
        · show travLoop (fun dep d => traverseF cgC.par f dep d) d (cgC.par 0) [] = none
          rw [hp0]
          simp only [travLoop, if_neg hdne, (ih (d - 1) hd1).2]
        · show travLoop (fun dep d => traverseF cgC.par f dep d) d (cgC.par 1) [] = none
          rw [hp1]
          simp only [travLoop, if_neg hdne, (ih (d - 1) hd1).1]
    intro fuel
    exact (key fuel (-1) (by norm_num)).1

/-- Claim C8, amended: parents(depth) and children(depth) produce
deduplicated sequences — depth 0 yields exactly the (deduplicated) direct
parents or children, and unbounded depth yields the transitive closure
with each node exactly once, diamonds included — and the traversal
terminates on every acyclic graph (with a finite closed node domain); on a
cyclic graph the unbounded traversal does not terminate, which is the
corrected part of the claim. -/
theorem claim_C8 (g : Graph) (t : Nat) (dom : List Nat) :
    (∀ f, parentsF g (f + 1) 0 t = some (dedupList (g.par t)) ∧
          childrenF g (f + 1) 0 t = some (dedupList (g.chl t))) ∧
    ((∀ i ∈ dom, ∀ j ∈ g.par i, j ∈ dom) → t ∈ dom →
      (¬∃ v k m, GReach g.par t v k ∧ 0 < m ∧ GReach g.par v v m) →
      ∃ fuel out, parentsF g fuel (-1) t = some out ∧ out.Nodup ∧
        ∀ x, x ∈ out ↔ ∃ n, 0 < n ∧ GReach g.par t x n) ∧
    ((∀ i ∈ dom, ∀ j ∈ g.chl i, j ∈ dom) → t ∈ dom →
      (¬∃ v k m, GReach g.chl t v k ∧ 0 < m ∧ GReach g.chl v v m) →
      ∃ fuel out, childrenF g fuel (-1) t = some out ∧ out.Nodup ∧
        ∀ x, x ∈ out ↔ ∃ n, 0 < n ∧ GReach g.chl t x n) := by
  have main : ∀ (adj : Nat → List Nat), (∀ i ∈ dom, ∀ j ∈ adj i, j ∈ dom) → t ∈ dom →
      (¬∃ v k m, GReach adj t v k ∧ 0 < m ∧ GReach adj v v m) →
      ∃ fuel out, traverseF adj fuel (-1) t = some out ∧ out.Nodup ∧
        ∀ x, x ∈ out ↔ ∃ n, 0 < n ∧ GReach adj t x n := by
    intro adj hdom ht hacyc
    have hbound := chain_bound_of_acyclic hdom ht hacyc
    have hbound2 : ∀ x n, GReach adj t x n → n < dom.length + 2 := by
      intro x n hr
      have := hbound x n hr
      omega
    obtain ⟨out, hout⟩ := traverse_suff hbound2 (-1)
    refine ⟨dom.length + 2, out, hout, traverse_nodup hout, fun x => ⟨?_, ?_⟩⟩
    · intro hx
      exact traverse_sound hout x hx
    · rintro ⟨n, hn, hr⟩
      cases n with
      | zero => omega
      | succ n => exact traverse_complete (by norm_num) hout x n hr
  exact ⟨fun f => ⟨traverse_depth0 g.par f t, traverse_depth0 g.chl f t⟩,
    main g.par, main g.chl⟩

/-- Claim C8, witness: on the three-node chain cg3 the unbounded parents
traversal from the target terminates and yields exactly the two ancestors,
each once. -/
theorem claim_C8_witness :
    ∃ fuel out, parentsF cg3 fuel (-1) 2 = some out ∧ out.Nodup ∧
      ∀ x, x ∈ out ↔ ∃ n, 0 < n ∧ GReach cg3.par 2 x n := by
  have hrk : ∀ b c, c ∈ cg3.par b → c < b := by
    intro b c h
    by_cases hb2 : b = 2
    · subst hb2
      rw [show cg3.par 2 = [1] from by decide] at h
      rw [List.mem_singleton] at h
      omega
    · by_cases hb1 : b = 1
      · subst hb1
        rw [show cg3.par 1 = [0] from by decide] at h
        rw [List.mem_singleton] at h
        omega
      · have hnil : cg3.par b = [] := by
          simp [cg3, dependson, mkG, hb2, hb1]
        rw [hnil] at h
        simp at h
  exact (claim_C8 cg3 2 [0, 1, 2]).2.1 (by decide) (by decide)
    (by
      rintro ⟨v, k, m, _, hm, hcyc⟩
      exact noCycle_of_rank hrk hm hcyc)

/-!
Lemmas about the roots traversal.
-/

theorem rootsLoop_mono {par : Nat → List Nat} {rec : Nat → Option (List Nat)} :
    ∀ {l out out' : List Nat}, rootsLoop par rec l out = some out' → out ⊆ out' := by
  intro l
  induction l with
  | nil =>
    intro out out' h
    simp only [rootsLoop, Option.some.injEq] at h
    subst h
    exact fun x hx => hx
  | cons d rest ih =>
    intro out out' h
    simp only [rootsLoop] at h
    by_cases hp : par d = []
    · rw [if_pos hp] at h
      exact fun x hx => ih h (addUnique_sub hx)
    · rw [if_neg hp] at h
      cases hrec : rec d with
      | none => rw [hrec] at h; cases h
      | some rs =>
        rw [hrec] at h
        exact fun x hx => ih h (foldl_addUnique_sub rs hx)

theorem rootsLoop_some_sub {par : Nat → List Nat} {rec : Nat → Option (List Nat)} :
    ∀ {l out out' : List Nat}, rootsLoop par rec l out = some out' →
      ∀ y ∈ l, par y ≠ [] → ∃ o, rec y = some o := by
  intro l
  induction l with
  | nil => intro out out' _ y hy; simp at hy
  | cons d rest ih =>
    intro out out' h y hy hpy
    simp only [rootsLoop] at h
    rcases List.mem_cons.mp hy with rfl | hy2
    · rw [if_neg hpy] at h
      cases hrec : rec y with
      | none => rw [hrec] at h; cases h
      | some rs => exact ⟨rs, rfl⟩
    · by_cases hp : par d = []
      · rw [if_pos hp] at h
        exact ih h y hy2 hpy
      · rw [if_neg hp] at h
        cases hrec : rec d with
        | none => rw [hrec] at h; cases h
        | some rs =>
          rw [hrec] at h
          exact ih h y hy2 hpy

theorem rootsLoop_mem_elem {par : Nat → List Nat} {rec : Nat → Option (List Nat)} :
    ∀ {l out out' : List Nat}, rootsLoop par rec l out = some out' →
      ∀ y ∈ l, par y = [] → y ∈ out' := by
  intro l
  induction l with
  | nil => intro out out' _ y hy; simp at hy
  | cons d rest ih =>
    intro out out' h y hy hpy
    simp only [rootsLoop] at h
    rcases List.mem_cons.mp hy with rfl | hy2
    · rw [if_pos hpy] at h
      exact rootsLoop_mono h (mem_addUnique.mpr (Or.inr rfl))
    · by_cases hp : par d = []
      · rw [if_pos hp] at h
        exact ih h y hy2 hpy
      · rw [if_neg hp] at h
        cases hrec : rec d with
        | none => rw [hrec] at h; cases h
        | some rs =>
          rw [hrec] at h
          exact ih h y hy2 hpy

theorem rootsLoop_mem_sub {par : Nat → List Nat} {rec : Nat → Option (List Nat)} :
    ∀ {l out out' : List Nat}, rootsLoop par rec l out = some out' →
      ∀ y ∈ l, ∀ o, rec y = some o → par y ≠ [] → ∀ x ∈ o, x ∈ out' := by
  intro l
  induction l with
  | nil => intro out out' _ y hy; simp at hy
  | cons d rest ih =>
    intro out out' h y hy o ho hpy x hx
    simp only [rootsLoop] at h
    rcases List.mem_cons.mp hy with rfl | hy2
    · rw [if_neg hpy, ho] at h
      exact rootsLoop_mono h ((mem_foldl_addUnique o _ x).mpr (Or.inr hx))
    · by_cases hp : par d = []
      · rw [if_pos hp] at h
        exact ih h y hy2 o ho hpy x hx
      · rw [if_neg hp] at h
        cases hrec : rec d with
        | none => rw [hrec] at h; cases h
        | some rs =>
          rw [hrec] at h
          exact ih h y hy2 o ho hpy x hx

theorem rootsLoop_mem_inv {par : Nat → List Nat} {rec : Nat → Option (List Nat)} :
    ∀ {l out out' : List Nat}, rootsLoop par rec l out = some out' →
      ∀ x ∈ out', x ∈ out ∨ (x ∈ l ∧ par x = []) ∨
        ∃ y ∈ l, par y ≠ [] ∧ ∃ o, rec y = some o ∧ x ∈ o := by
  intro l
  induction l with
  | nil =>
    intro out out' h x hx
    simp only [rootsLoop, Option.some.injEq] at h
    subst h
    exact Or.inl hx
  | cons d rest ih =>
    intro out out' h x hx
    simp only [rootsLoop] at h
    by_cases hp : par d = []
    · rw [if_pos hp] at h
      rcases ih h x hx with h2 | h2 | h2
      · rcases mem_addUnique.mp h2 with h3 | rfl
        · exact Or.inl h3
        · exact Or.inr (Or.inl ⟨List.mem_cons_self _ _, hp⟩)
      · exact Or.inr (Or.inl ⟨List.mem_cons_of_mem _ h2.1, h2.2⟩)
      · obtain ⟨y, hy, hpy, o, ho, hxo⟩ := h2
        exact Or.inr (Or.inr ⟨y, List.mem_cons_of_mem _ hy, hpy, o, ho, hxo⟩)
    · rw [if_neg hp] at h
      cases hrec : rec d with
      | none => rw [hrec] at h; cases h
      | some rs =>
        rw [hrec] at h
        rcases ih h x hx with h2 | h2 | h2
        · rcases (mem_foldl_addUnique rs _ x).mp h2 with h3 | h3
          · exact Or.inl h3
          · exact Or.inr (Or.inr ⟨d, List.mem_cons_self _ _, hp, rs, hrec, h3⟩)
        · exact Or.inr (Or.inl ⟨List.mem_cons_of_mem _ h2.1, h2.2⟩)
        · obtain ⟨y, hy, hpy, o, ho, hxo⟩ := h2
          exact Or.inr (Or.inr ⟨y, List.mem_cons_of_mem _ hy, hpy, o, ho, hxo⟩)

theorem roots_sound {g : Graph} :
    ∀ {f : Nat} {self : Nat} {out : List Nat}, rootsF g f self = some out →
      ∀ x ∈ out, g.par x = [] ∧ ∃ n, 0 < n ∧ GReach g.par self x n := by
  intro f
  induction f with
  | zero => intro self out h; cases h
  | succ f ih =>
    intro self out h x hx
    simp only [rootsF] at h
    rcases rootsLoop_mem_inv h x hx with h2 | h2 | h2
    · simp at h2
    · exact ⟨h2.2, 1, Nat.one_pos, GReach.single h2.1⟩
    · obtain ⟨y, hy, _, o, ho, hxo⟩ := h2
      obtain ⟨hpx, n, hn, hr⟩ := ih ho x hxo
      exact ⟨hpx, n + 1, Nat.succ_pos n, GReach.cons_step hy hr⟩

theorem roots_complete {g : Graph} :
    ∀ {f : Nat} {self : Nat} {out : List Nat}, rootsF g f self = some out →
      ∀ x n, GReach g.par self x (n + 1) → g.par x = [] → x ∈ out := by
  intro f
  induction f with
  | zero => intro self out h; cases h
  | succ f ih =>
    intro self out h x n hr hpx
    obtain ⟨b, hb, hr2⟩ := GReach.head_decomp hr
    simp only [rootsF] at h
    cases n with
    | zero =>
      cases hr2.zero_eq
      exact rootsLoop_mem_elem h x hb hpx
    | succ n =>
      have hpb : g.par b ≠ [] := by
        intro hpb
        obtain ⟨c, hc, _⟩ := GReach.head_decomp hr2
        rw [hpb] at hc
        simp at hc
      obtain ⟨o, ho⟩ := rootsLoop_some_sub h b hb hpb
      have hxo : x ∈ o := ih ho x n hr2 hpx
      exact rootsLoop_mem_sub h b hb o ho hpb x hxo

/-!
Lemmas about is_acyclic.
-/

theorem memEq_false_forall {g : Graph} {x : Nat} {l : List Nat}
    (h : memEq g x l = false) : ∀ y ∈ l, pyEqB g x y = false := by
  intro y hy
  by_contra hne
  have : pyEqB g x y = true := by
    cases hb : pyEqB g x y
    · exact absurd hb hne
    · rfl
  rw [memEq_true_iff.mpr ⟨y, hy, this⟩] at h
  cases h

theorem removeFirstEq_append {g : Graph} {d : Nat} :
    ∀ {temp : List Nat}, memEq g d temp = false →
      removeFirstEq g d (temp ++ [d]) = temp := by
  intro temp
  induction temp with
  | nil =>
    intro _
    simp [removeFirstEq, pyEqB_refl]
  | cons y ys ih =>
    intro h
    have hy : pyEqB g d y = false := memEq_false_forall h y (List.mem_cons_self _ _)
    have hys : memEq g d ys = false := by
      cases hm : memEq g d ys
      · rfl
      · obtain ⟨z, hz, hpz⟩ := memEq_true_iff.mp hm
        rw [memEq_true_iff.mpr ⟨z, List.mem_cons_of_mem _ hz, hpz⟩] at h
        cases h
    simp only [List.cons_append, removeFirstEq, hy, Bool.false_eq_true, if_false]
    exact congrArg (List.cons y) (ih hys)

theorem visit_ok_props {g : Graph} {root : Nat} :
    ∀ {f : Nat} {d : Nat} {temp perm t1 p1 : List Nat},
      visitF g f d temp perm = some (.ok (t1, p1)) →
      (∃ n, GReach g.par root d n) →
      (∀ x ∈ perm, ∃ n, GReach g.par root x n) →
      t1 = temp ∧ ∀ x ∈ p1, ∃ n, GReach g.par root x n := by
  intro f
  induction f with
  | zero => intro d temp perm t1 p1 h; cases h
  | succ f ih =>
    intro d temp perm t1 p1 h hd hperm
    simp only [visitF] at h
    by_cases htemp : memEq g d temp = true
    · rw [if_pos htemp] at h
      cases h
    · rw [if_neg htemp] at h
      by_cases hpm : memEq g d perm = true
      · rw [if_pos hpm] at h
        cases h
        exact ⟨rfl, hperm⟩
      · rw [if_neg hpm] at h
        have hlist : ∀ (l : List Nat) (t0 pm t2 p2 : List Nat),
            (∀ y ∈ l, ∃ n, GReach g.par root y n) →
            (∀ x ∈ pm, ∃ n, GReach g.par root x n) →
            visitList (fun p t pm2 => visitF g f p t pm2) l t0 pm = some (.ok (t2, p2)) →
            t2 = t0 ∧ ∀ x ∈ p2, ∃ n, GReach g.par root x n := by
          intro l
          induction l with
          | nil =>
            intro t0 pm t2 p2 _ hpm2 hl
            simp only [visitList, Option.some.injEq] at hl
            cases hl
            exact ⟨rfl, hpm2⟩
          | cons p rest ihl =>
            intro t0 pm t2 p2 hlr hpm2 hl
            simp only [visitList] at hl
            cases hv : visitF g f p t0 pm with
            | none => rw [hv] at hl; cases hl
            | some res =>
              rw [hv] at hl
              cases res with
              | error e => cases hl
              | ok tp =>
                obtain ⟨t3, p3⟩ := tp
                obtain ⟨ht3, hp3⟩ := ih hv (hlr p (List.mem_cons_self _ _)) hpm2
                rw [ht3] at hl
                exact ihl t0 p3 t2 p2 (fun y hy => hlr y (List.mem_cons_of_mem _ hy)) hp3 hl
        cases hvl : visitList (fun p t pm2 => visitF g f p t pm2)
            (dedupList (g.par d)) (temp ++ [d]) perm with
        | none => rw [hvl] at h; cases h
        | some res =>
          rw [hvl] at h
          cases res with
          | error e => cases h
          | ok tp =>
            obtain ⟨t2, p2⟩ := tp
            cases h
            obtain ⟨n0, hn0⟩ := hd
            have hpar : ∀ y ∈ dedupList (g.par d), ∃ n, GReach g.par root y n := by
              intro y hy
              exact ⟨n0 + 1, GReach.step hn0 (mem_dedupList.mp hy)⟩
            obtain ⟨ht2, hp2⟩ := hlist _ _ _ _ _ hpar hperm hvl
            rw [ht2]
            refine ⟨removeFirstEq_append (by simpa using htemp), ?_⟩
            intro x hx
            rcases List.mem_append.mp hx with hx2 | hx2
            · exact hp2 x hx2
            · rw [List.mem_singleton] at hx2
              subst hx2
              exact ⟨n0, hn0⟩

theorem stacked_reach {g : Graph} {root : Nat} :
    ∀ {l : List Nat} {top : Nat}, Stacked g root l top →
      (∃ n, GReach g.par root top n) ∧ ∀ x ∈ l, ∃ n, GReach g.par root x n := by
  intro l top h
  induction h with
  | base => exact ⟨⟨0, GReach.refl root⟩, by simp; exact ⟨0, GReach.refl root⟩⟩
  | push h0 hedge ih =>
    obtain ⟨⟨nt, hnt⟩, hl⟩ := ih
    refine ⟨⟨nt + 1, GReach.step hnt hedge⟩, ?_⟩
    intro x hx
    rcases List.mem_append.mp hx with hx2 | hx2
    · exact hl x hx2
    · rw [List.mem_singleton] at hx2
      subst hx2
      exact ⟨nt + 1, GReach.step hnt hedge⟩

theorem stacked_decomp {g : Graph} {root : Nat} :
    ∀ {l : List Nat} {top : Nat}, Stacked g root l top → ∀ d ∈ l,
      (∃ k, GReach g.par root d k) ∧ ∃ m, GReach g.par d top m := by
  intro l top h
  induction h with
  | base =>
    intro d hd
    rw [List.mem_singleton] at hd
    rw [hd]
    exact ⟨⟨0, GReach.refl _⟩, 0, GReach.refl _⟩
  | push h0 hedge ih =>
    rename_i l0 top0 p
    intro d hd
    rcases List.mem_append.mp hd with hd2 | hd2
    · obtain ⟨hk, m, hm⟩ := ih d hd2
      exact ⟨hk, m + 1, GReach.step hm hedge⟩
    · rw [List.mem_singleton] at hd2
      subst hd2
      obtain ⟨⟨nt, hnt⟩, _⟩ := stacked_reach h0
      exact ⟨⟨nt + 1, GReach.step hnt hedge⟩, 0, GReach.refl d⟩

theorem stacked_cycle {g : Graph} {root : Nat} {l : List Nat} {top d : Nat}
    (h : Stacked g root l top) (hd : d ∈ l) (hedge : d ∈ g.par top) :
    CycleReachable g root := by
  obtain ⟨⟨k, hk⟩, m, hm⟩ := stacked_decomp h d hd
  exact ⟨d, k, m + 1, hk, Nat.succ_pos m, GReach.step hm hedge⟩

theorem visit_ok_safe {g : Graph} {root : Nat} (hdist : DistinctAbove g root) :
    ∀ {f : Nat} {d : Nat} {temp perm t1 p1 : List Nat},
      visitF g f d temp perm = some (.ok (t1, p1)) →
      (∃ n, GReach g.par root d n) →
      (∀ x ∈ perm, (∃ n, GReach g.par root x n) ∧ ¬CycleReachable g x) →
      (¬CycleReachable g d) ∧ ∀ x ∈ p1, (∃ n, GReach g.par root x n) ∧ ¬CycleReachable g x := by
  intro f
  induction f with
  | zero => intro d temp perm t1 p1 h; cases h
  | succ f ih =>
    intro d temp perm t1 p1 h hd hperm
    simp only [visitF] at h
    by_cases htemp : memEq g d temp = true
    · rw [if_pos htemp] at h
      cases h
    · rw [if_neg htemp] at h
      by_cases hpm : memEq g d perm = true
      · rw [if_pos hpm] at h
        cases h
        obtain ⟨y, hy, hpy⟩ := memEq_true_iff.mp hpm
        obtain ⟨nd, hnd⟩ := hd
        obtain ⟨⟨ny, hny⟩, _⟩ := hperm y hy
        have : d = y := hdist d y nd ny hnd hny hpy
        subst this
        exact ⟨(hperm d hy).2, hperm⟩
      · rw [if_neg hpm] at h
        have hlist : ∀ (l : List Nat) (t0 pm t2 p2 : List Nat),
            (∀ y ∈ l, ∃ n, GReach g.par root y n) →
            (∀ x ∈ pm, (∃ n, GReach g.par root x n) ∧ ¬CycleReachable g x) →
            visitList (fun p t pm2 => visitF g f p t pm2) l t0 pm = some (.ok (t2, p2)) →
            (∀ y ∈ l, ¬CycleReachable g y) ∧
              ∀ x ∈ p2, (∃ n, GReach g.par root x n) ∧ ¬CycleReachable g x := by
          intro l
          induction l with
          | nil =>
            intro t0 pm t2 p2 _ hpm2 hl
            simp only [visitList, Option.some.injEq] at hl
            cases hl
            exact ⟨by simp, hpm2⟩
          | cons p rest ihl =>
            intro t0 pm t2 p2 hlr hpm2 hl
            simp only [visitList] at hl
            cases hv : visitF g f p t0 pm with
            | none => rw [hv] at hl; cases hl
            | some res =>
              rw [hv] at hl
              cases res with
              | error e => cases hl
              | ok tp =>
                obtain ⟨t3, p3⟩ := tp
                obtain ⟨hps, hp3⟩ := ih hv (hlr p (List.mem_cons_self _ _)) hpm2
                obtain ⟨hrest, hp2⟩ :=
                  ihl t3 p3 t2 p2 (fun y hy => hlr y (List.mem_cons_of_mem _ hy)) hp3 hl
                refine ⟨?_, hp2⟩
                intro y hy
                rcases List.mem_cons.mp hy with rfl | hy2
                · exact hps
                · exact hrest y hy2
        cases hvl : visitList (fun p t pm2 => visitF g f p t pm2)
            (dedupList (g.par d)) (temp ++ [d]) perm with
        | none => rw [hvl] at h; cases h
        | some res =>
          rw [hvl] at h
          cases res with
          | error e => cases h
          | ok tp =>
            obtain ⟨t2, p2⟩ := tp
            cases h
            obtain ⟨n0, hn0⟩ := hd
            have hpar : ∀ y ∈ dedupList (g.par d), ∃ n, GReach g.par root y n := by
              intro y hy
              exact ⟨n0 + 1, GReach.step hn0 (mem_dedupList.mp hy)⟩
            obtain ⟨hpsafe, hp2⟩ := hlist _ _ _ _ _ hpar hperm hvl
            have hdsafe : ¬CycleReachable g d := by
              rintro ⟨x, n, m, hreach, hm0, hcyc⟩
              cases n with
              | zero =>
                cases hreach.zero_eq
                cases m with
                | zero => omega
                | succ m =>
                  obtain ⟨p0, hp0, hr0⟩ := GReach.head_decomp hcyc
                  exact hpsafe p0 (mem_dedupList.mpr hp0) ⟨d, m, m + 1, hr0, hm0, hcyc⟩
              | succ n =>
                obtain ⟨p0, hp0, hr0⟩ := GReach.head_decomp hreach
                exact hpsafe p0 (mem_dedupList.mpr hp0) ⟨x, n, m, hr0, hm0, hcyc⟩
            refine ⟨hdsafe, ?_⟩
            intro x hx
            rcases List.mem_append.mp hx with hx2 | hx2
            · exact hp2 x hx2
            · rw [List.mem_singleton] at hx2
              subst hx2
              exact ⟨⟨n0, hn0⟩, hdsafe⟩

theorem visit_err_cycle {g : Graph} {root : Nat} (hdist : DistinctAbove g root) :
    ∀ {f : Nat} {d : Nat} {temp perm : List Nat} {e : Unit},
      visitF g f d temp perm = some (.error e) →
      ((temp = [] ∧ d = root) ∨ ∃ top, Stacked g root temp top ∧ d ∈ g.par top) →
      (∀ x ∈ perm, ∃ n, GReach g.par root x n) →
      CycleReachable g root := by
  intro f
  induction f with
  | zero => intro d temp perm e h; cases h
  | succ f ih =>
    intro d temp perm e h hinv hperm
    simp only [visitF] at h
    by_cases htemp : memEq g d temp = true
    · obtain ⟨y, hy, hpy⟩ := memEq_true_iff.mp htemp
      rcases hinv with ⟨htemp0, _⟩ | ⟨top, hstack, hedge⟩
      · rw [htemp0] at hy
        simp at hy
      · have hd : ∃ n, GReach g.par root d n := by
          obtain ⟨⟨nt, hnt⟩, _⟩ := stacked_reach hstack
          exact ⟨nt + 1, GReach.step hnt hedge⟩
        obtain ⟨nd, hnd⟩ := hd
        obtain ⟨_, hl⟩ := stacked_reach hstack
        obtain ⟨ny, hny⟩ := hl y hy
        have : d = y := hdist d y nd ny hnd hny hpy
        subst this
        exact stacked_cycle hstack hy hedge
    · rw [if_neg htemp] at h
      by_cases hpm : memEq g d perm = true
      · rw [if_pos hpm] at h
        cases h
      · rw [if_neg hpm] at h
        have hstackd : Stacked g root (temp ++ [d]) d := by
          rcases hinv with ⟨htemp0, hd0⟩ | ⟨top, hstack, hedge⟩
          · rw [htemp0, hd0]
            exact Stacked.base
          · exact hstack.push hedge
        have hd : ∃ n, GReach g.par root d n := by
          obtain ⟨hn, _⟩ := stacked_reach hstackd
          exact hn
        obtain ⟨n0, hn0⟩ := hd
        have hlist : ∀ (l : List Nat) (pm : List Nat),
            (∀ y ∈ l, y ∈ g.par d) →
            (∀ x ∈ pm, ∃ n, GReach g.par root x n) →
            ∀ {e2 : Unit}, visitList (fun p t pm2 => visitF g f p t pm2) l (temp ++ [d]) pm =
              some (.error e2) →
            CycleReachable g root := by
          intro l
          induction l with
          | nil =>
            intro pm _ _ e2 hl
            simp only [visitList] at hl
            cases hl
          | cons p rest ihl =>
            intro pm hlr hpm2 e2 hl
            simp only [visitList] at hl
            cases hv : visitF g f p (temp ++ [d]) pm with
            | none => rw [hv] at hl; cases hl
            | some res =>
              rw [hv] at hl
              cases res with
              | error e3 =>
                exact ih hv (Or.inr ⟨d, hstackd, hlr p (List.mem_cons_self _ _)⟩) hpm2
              | ok tp =>
                obtain ⟨t3, p3⟩ := tp
                obtain ⟨ht3, hp3⟩ := visit_ok_props hv
                  ⟨n0 + 1, GReach.step hn0 (hlr p (List.mem_cons_self _ _))⟩ hpm2
                subst ht3
                exact ihl p3 (fun y hy => hlr y (List.mem_cons_of_mem _ hy)) hp3 hl
        cases hvl : visitList (fun p t pm2 => visitF g f p t pm2)
            (dedupList (g.par d)) (temp ++ [d]) perm with
        | none => rw [hvl] at h; cases h
        | some res =>
          rw [hvl] at h
          cases res with
          | error e3 =>
            exact hlist _ _ (fun y hy => mem_dedupList.mp hy) hperm hvl
          | ok tp =>
            obtain ⟨t2, p2⟩ := tp
            cases h

theorem distinctAbove_of_closed {g : Graph} {t : Nat} (S : List Nat) (ht : t ∈ S)
    (hcl : ∀ i ∈ S, ∀ j ∈ g.par i, j ∈ S)
    (hpair : ∀ i ∈ S, ∀ j ∈ S, pyEqB g i j = true → i = j) : DistinctAbove g t :=
  fun i j _ _ hi hj heq =>
    hpair i (reach_mem_closed hcl ht hi) j (reach_mem_closed hcl ht hj) heq

/-- Claim C4, counterexample: cgMask contains a reachable cycle above node
2 (node 1 depends on itself and is a parent of node 2), yet is_acyclic
returns true: the done-list membership test uses structural Dataset
equality, and node 1 is structurally equal to the already finished node 0,
so the walk never explores the self-loop.  is_acyclic is therefore not
false for every graph with a reachable cycle. -/
theorem claim_C4_counterexample :
    is_acyclic cgMask 10 2 = some true ∧ CycleReachable cgMask 2 := by
  constructor
  · decide
  · exact ⟨1, 1, 1, GReach.single (by decide), Nat.one_pos, GReach.single (by decide)⟩

/-- Claim C4, amended: provided no two distinct nodes in the ancestor
closure of the queried dataset are structurally equal, is_acyclic (when it
returns within the given fuel) is a pure boolean predicate returning false
exactly when a cycle is reachable above the dataset and true for any DAG;
as a function of the graph it has no side effects by construction, which
embeds the fact that visit only touches its local mark lists. -/
theorem claim_C4 (g : Graph) (t : Nat) (fuel : Nat) (b : Bool)
    (hdist : DistinctAbove g t) (hcomp : is_acyclic g fuel t = some b) :
    b = false ↔ CycleReachable g t := by
  unfold is_acyclic at hcomp
  cases hv : visitF g fuel t [] [] with
  | none => rw [hv] at hcomp; cases hcomp
  | some res =>
    rw [hv] at hcomp
    cases res with
    | error e =>
      cases hcomp
      simp only [true_iff]
      exact visit_err_cycle hdist hv (Or.inl ⟨rfl, rfl⟩) (by simp)
    | ok tp =>
      cases hcomp
      obtain ⟨t1, p1⟩ := tp
      have hsafe := (visit_ok_safe hdist hv ⟨0, GReach.refl t⟩ (by simp)).1
      constructor
      · intro hfalse
        cases hfalse
      · intro hcyc
        exact absurd hcyc hsafe

/-- Claim C4, witness: on the two-node cycle cgC with distinct names,
is_acyclic returns false, and the amended claim recovers that a cycle is
reachable above node 0. -/
theorem claim_C4_witness : CycleReachable cgC 0 :=
  (claim_C4 cgC 0 10 false
    (distinctAbove_of_closed [0, 1] (by decide) (by decide) (by decide))
    (by decide)).mp rfl

/-!
Lemmas about buildnext.
-/

theorem needsbuildNext_parentmissing {g : Graph} {fs : FS} {c : Nat}
    (h : ∃ p ∈ g.par c, existsD g fs p = false) :
    needsbuildNext g fs c = (false, some .parentmissing) := by
  obtain ⟨p, hp, hpx⟩ := h
  have hall : (dedupList (g.par c)).all (fun q => existsD g fs q) = false := by
    rw [List.all_eq_false]
    exact ⟨p, mem_dedupList.mpr hp, by simp [hpx]⟩
  simp [needsbuildNext, hall]

theorem walkStep_yields {g : Graph} {fs : FS} {anc : List Nat}
    {st st' : List (Nat × Reason) × List Nat} {c : Nat}
    (h : walkStep g fs anc st c = .ok st') :
    ∀ dr ∈ st'.1, dr ∈ st.1 ∨
      (needsbuildNext g fs dr.1 = (true, some dr.2) ∧ memEq g dr.1 anc = true) := by
  intro dr hdr
  unfold walkStep at h
  by_cases hmem : memEq g c anc = true
  · rw [hmem] at h
    simp only [Bool.not_true, Bool.false_eq_true, if_false] at h
    cases hnb : needsbuildNext g fs c with
    | mk b ro =>
      rw [hnb] at h
      cases b with
      | true =>
        cases ro with
        | none => cases h
        | some r =>
          cases r with
          | parentmissing => cases h
          | parentnewer =>
            cases h
            rcases List.mem_append.mp hdr with h2 | h2
            · exact Or.inl h2
            · rw [List.mem_singleton] at h2
              subst h2
              exact Or.inr ⟨hnb, hmem⟩
          | missing =>
            cases h
            rcases List.mem_append.mp hdr with h2 | h2
            · exact Or.inl h2
            · rw [List.mem_singleton] at h2
              subst h2
              exact Or.inr ⟨hnb, hmem⟩
      | false =>
        cases ro with
        | none =>
          cases h
          exact Or.inl hdr
        | some r =>
          cases r with
          | parentmissing =>
            cases h
            exact Or.inl hdr
          | parentnewer =>
            cases h
            exact Or.inl hdr
          | missing =>
            cases h
            exact Or.inl hdr
  · have : memEq g c anc = false := by
      cases hm : memEq g c anc
      · rfl
      · exact absurd hm hmem
    rw [this] at h
    simp only [Bool.not_false, if_true] at h
    cases h
    exact Or.inl hdr

theorem walkList_yields {g : Graph} {fs : FS} {anc : List Nat} :
    ∀ {l : List Nat} {st st' : List (Nat × Reason) × List Nat},
      walkList g fs anc l st = .ok st' →
      ∀ dr ∈ st'.1, dr ∈ st.1 ∨
        (needsbuildNext g fs dr.1 = (true, some dr.2) ∧ memEq g dr.1 anc = true) := by
  intro l
  induction l with
  | nil =>
    intro st st' h dr hdr
    simp only [walkList] at h
    cases h
    exact Or.inl hdr
  | cons c rest ih =>
    intro st st' h dr hdr
    simp only [walkList] at h
    cases hs : walkStep g fs anc st c with
    | error e => rw [hs] at h; cases h
    | ok st1 =>
      rw [hs] at h
      rcases ih h dr hdr with h2 | h2
      · exact walkStep_yields hs dr h2
      · exact Or.inr h2

theorem bnLoop_out {g : Graph} {fs : FS} {anc : List Nat} :
    ∀ {fuel : Nat} {branches built : List Nat} {out : List (Nat × Reason)}
      {res : List Nat × List (Nat × Reason)},
      bnLoop g fs anc fuel branches built out = some (.ok res) →
      ∀ dr ∈ res.2, dr ∈ out ∨
        (needsbuildNext g fs dr.1 = (true, some dr.2) ∧ memEq g dr.1 anc = true) := by
  intro fuel
  induction fuel with
  | zero => intro branches built out res h; cases h
  | succ fuel ih =>
    intro branches built out res h dr hdr
    cases branches with
    | nil =>
      simp only [bnLoop, Option.some.injEq] at h
      cases h
      exact Or.inl hdr
    | cons stem rest =>
      simp only [bnLoop] at h
      cases hw : walkbranch g fs anc stem (stem :: rest) with
      | error e => rw [hw] at h; cases h
      | ok ysbr =>
        obtain ⟨ys, branches1⟩ := ysbr
        rw [hw] at h
        have hfold : ∀ (ys2 : List (Nat × Reason)) (bo : List Nat × List (Nat × Reason)),
            (∀ dr2 ∈ bo.2, dr2 ∈ out ∨
              (needsbuildNext g fs dr2.1 = (true, some dr2.2) ∧ memEq g dr2.1 anc = true)) →
            (∀ dr2 ∈ ys2, dr2 ∈ out ∨
              (needsbuildNext g fs dr2.1 = (true, some dr2.2) ∧ memEq g dr2.1 anc = true)) →
            ∀ dr2 ∈ (ys2.foldl
              (fun (bo : List Nat × List (Nat × Reason)) dr3 =>
                if memEq g dr3.1 bo.1 then bo else (bo.1 ++ [dr3.1], bo.2 ++ [dr3]))
              bo).2,
              dr2 ∈ out ∨
                (needsbuildNext g fs dr2.1 = (true, some dr2.2) ∧ memEq g dr2.1 anc = true) := by
          intro ys2
          induction ys2 with
          | nil => intro bo hbo _ dr2 hdr2; exact hbo dr2 hdr2
          | cons y ys3 ih2 =>
            intro bo hbo hys dr2 hdr2
            simp only [List.foldl_cons] at hdr2
            by_cases hm : memEq g y.1 bo.1 = true
            · rw [if_pos hm] at hdr2
              exact ih2 bo hbo (fun d hd => hys d (List.mem_cons_of_mem _ hd)) dr2 hdr2
            · rw [if_neg hm] at hdr2
              refine ih2 _ ?_ (fun d hd => hys d (List.mem_cons_of_mem _ hd)) dr2 hdr2
              intro d hd
              rcases List.mem_append.mp hd with h3 | h3
              · exact hbo d h3
              · rw [List.mem_singleton] at h3
                subst h3
                exact hys d (List.mem_cons_self _ _)
        have hys : ∀ dr2 ∈ ys, dr2 ∈ ([] : List (Nat × Reason)) ∨
            (needsbuildNext g fs dr2.1 = (true, some dr2.2) ∧ memEq g dr2.1 anc = true) :=
          walkList_yields hw
        have hys2 : ∀ dr2 ∈ ys,
            dr2 ∈ out ∨
              (needsbuildNext g fs dr2.1 = (true, some dr2.2) ∧ memEq g dr2.1 anc = true) := by
          intro dr2 hdr2
          rcases hys dr2 hdr2 with h3 | h3
          · simp at h3
          · exact Or.inr h3
        rcases ih h dr hdr with h2 | h2
        · exact hfold ys (built, out) (fun d hd => Or.inl hd) hys2 dr h2
        · exact Or.inr h2

theorem buildnext_ok_inv {g : Graph} {fs : FS} {fuel t : Nat} {ig : List Nat}
    {out : List (Nat × Reason)} (h : buildnext g fs fuel t ig = some (.ok out)) :
    ∃ anc rts built, is_acyclic g fuel t = some true ∧
      traverseF g.par fuel (-1) t = some anc ∧ rootsF g fuel t = some rts ∧
      bnLoop g fs anc fuel rts ig [] = some (.ok (built, out)) := by
  unfold buildnext at h
  split at h
  · cases h
  · cases h
  · rename_i hacy
    split at h
    · cases h
    · rename_i anc hanc
      split at h
      · cases h
      · rename_i rts hrts
        split at h
        · cases h
        · cases h
        · rename_i built out2 hbn
          cases h
          exact ⟨anc, rts, built, hacy, hanc, hrts, hbn⟩

/-- Claim C3: for each examined child of a walked branch node — a direct
child lying within the ancestor list of the target — buildnext decides as
the spec states: a child with a missing direct parent is deferred and, at
the whole-call level, never yielded; an existing child older than some
direct parent is yielded with ParentNewer; a missing child is yielded with
Missing; an up-to-date child becomes a new branch (unless an equal one is
queued) and nothing is yielded for it. -/
theorem claim_C3 (g : Graph) (fs : FS) (anc : List Nat)
    (st : List (Nat × Reason) × List Nat) (child : Nat)
    (hex : memEq g child anc = true) :
    ((∀ p ∈ g.par child, existsD g fs p = true) → existsD g fs child = true →
      (∃ p ∈ g.par child, olderD g fs child p = true) →
      walkStep g fs anc st child = .ok (st.1 ++ [(child, .parentnewer)], st.2)) ∧
    ((∀ p ∈ g.par child, existsD g fs p = true) → existsD g fs child = false →
      walkStep g fs anc st child = .ok (st.1 ++ [(child, .missing)], st.2)) ∧
    ((∀ p ∈ g.par child, existsD g fs p = true) → existsD g fs child = true →
      (∀ p ∈ g.par child, olderD g fs child p = false) →
      walkStep g fs anc st child =
        .ok (st.1, if memEq g child st.2 then st.2 else st.2 ++ [child])) ∧
    (∀ fuel t out, buildnext g fs fuel t [] = some (.ok out) →
      ∀ c, (∃ p ∈ g.par c, existsD g fs p = false) → ∀ r, (c, r) ∉ out) := by
  have hallex : (∀ p ∈ g.par child, existsD g fs p = true) →
      (dedupList (g.par child)).all (fun q => existsD g fs q) = true := by
    intro hp
    rw [List.all_eq_true]
    exact fun q hq => hp q (mem_dedupList.mp hq)
  refine ⟨?_, ?_, ?_, ?_⟩
  · intro hp hce hold
    obtain ⟨p, hpmem, hpold⟩ := hold
    have hany : (dedupList (g.par child)).any (fun q => olderD g fs child q) = true := by
      rw [List.any_eq_true]
      exact ⟨p, mem_dedupList.mpr hpmem, hpold⟩
    have hnb : needsbuildNext g fs child = (true, some .parentnewer) := by
      simp [needsbuildNext, hallex hp, hce, hany]
    simp [walkStep, hex, hnb]
  · intro hp hce
    have hnb : needsbuildNext g fs child = (true, some .missing) := by
      simp [needsbuildNext, hallex hp, hce]
    simp [walkStep, hex, hnb]
  · intro hp hce hold
    have hany : (dedupList (g.par child)).any (fun q => olderD g fs child q) = false := by
      rw [List.any_eq_false]
      intro q hq
      simp [hold q (mem_dedupList.mp hq)]
    have hnb : needsbuildNext g fs child = (false, none) := by
      simp [needsbuildNext, hallex hp, hce, hany]
    simp [walkStep, hex, hnb]
  · intro fuel t out hcomp c hmiss r hin
    obtain ⟨anc2, rts, built, _, _, _, hbn⟩ := buildnext_ok_inv hcomp
    rcases bnLoop_out hbn (c, r) hin with h2 | h2
    · simp at h2
    · rw [needsbuildNext_parentmissing hmiss] at h2
      cases h2.1

/-- Claim C3, witness: in cg3 with only the root file present, the
examined child node 1 (file q, missing, parents all present) is yielded
with reason Missing by the walk step, and node 2 (whose direct parent q is
missing) is never yielded by buildnext. -/
theorem claim_C3_witness :
    walkStep cg3 fs3 [1, 0] ([], [0]) 1 = .ok ([(1, Reason.missing)], [0]) ∧
    (2, Reason.missing) ∉ [(1, Reason.missing)] := by
  constructor
  · exact (claim_C3 cg3 fs3 [1, 0] ([], [0]) 1 (by decide)).2.1 (by decide) (by decide)
  · exact (claim_C3 cg3 fs3 [1, 0] ([], [0]) 1 (by decide)).2.2.2 15 2 [(1, Reason.missing)]
      rfl 2 ⟨1, by decide, by decide⟩ Reason.missing

/-- Claim C10, counterexample: the ancestor graph of node 2 in cgMask
contains a cycle, yet buildnext never raises CircularDependency: the
structural-equality marking of is_acyclic misses the cycle, and the
subsequent unbounded ancestor traversal diverges (RecursionError in
Python) — for every fuel the computation fails to complete, so no
CircularDependency is raised on first evaluation. -/
theorem claim_C10_counterexample :
    CycleReachable cgMask 2 ∧ ∀ fuel, buildnext cgMask fsNone fuel 2 [] = none := by
  have hcyc : CycleReachable cgMask 2 :=
    ⟨1, 1, 1, GReach.single (by decide), Nat.one_pos, GReach.single (by decide)⟩
  refine ⟨hcyc, ?_⟩
  intro fuel
  match fuel with
  | 0 => rfl
  | 1 => rfl
  | (f + 2) =>
    have hdiv : traverseF cgMask.par (f + 2) (-1) 2 = none := by
      cases h : traverseF cgMask.par (f + 2) (-1) 2 with
      | none => rfl
      | some out =>
        exact absurd hcyc (traverse_noCycle (by norm_num) h)
    have heq : is_acyclic cgMask (f + 2) 2 = some true := rfl
    simp [buildnext, heq, hdiv]

/-- Claim C10, amended: provided no two distinct ancestors of the target
are structurally equal Datasets, buildnext on a target with a reachable
ancestor cycle yields an immediate CircularDependency whenever its first
evaluation completes, before any (dataset, reason) pair is produced. -/
theorem claim_C10 (g : Graph) (fs : FS) (fuel t : Nat) (ig : List Nat)
    (r : Except PyErr (List (Nat × Reason)))
    (hdist : DistinctAbove g t) (hcyc : CycleReachable g t)
    (hcomp : buildnext g fs fuel t ig = some r) : r = .error .circular := by
  unfold buildnext at hcomp
  cases hacy : is_acyclic g fuel t with
  | none => rw [hacy] at hcomp; cases hcomp
  | some b =>
    rw [hacy] at hcomp
    cases b with
    | false =>
      exact (Option.some.inj hcomp).symm
    | true =>
      exfalso
      unfold is_acyclic at hacy
      cases hv : visitF g fuel t [] [] with
      | none => rw [hv] at hacy; cases hacy
      | some res =>
        rw [hv] at hacy
        cases res with
        | error e => simp at hacy
        | ok tp =>
          obtain ⟨t1, p1⟩ := tp
          exact absurd hcyc (visit_ok_safe hdist hv ⟨0, GReach.refl t⟩ (by simp)).1

/-- Claim C10, witness: on the two-node cycle cgC with distinct names,
buildnext completes and its result is the raised CircularDependency, with
no pair yielded. -/
theorem claim_C10_witness :
    ∃ r, buildnext cgC fsNone 10 0 [] = some r ∧ r = Except.error PyErr.circular := by
  refine ⟨Except.error PyErr.circular, rfl, ?_⟩
  exact claim_C10 cgC fsNone 10 0 [] (Except.error PyErr.circular)
    (distinctAbove_of_closed [0, 1] (by decide) (by decide) (by decide))
    ⟨0, 0, 2, GReach.refl 0, by omega,
      GReach.step (GReach.single (show (1 : Nat) ∈ cgC.par 0 by decide))
        (show (0 : Nat) ∈ cgC.par 1 by decide)⟩
    rfl

/-!
Lemmas about the breadth-first marking of buildall.
-/

theorem markFold_queue (i : Nat) :
    ∀ (cs : List Nat) (m q : List (Nat × Nat)),
      (markFold i cs (m, q)).2 = q ++ cs.map (fun c => (i + 1, c)) := by
  intro cs
  induction cs with
  | nil => intro m q; simp [markFold]
  | cons child cs ih =>
    intro m q
    simp only [markFold, List.map_cons]
    rw [ih]
    simp

theorem markStep_ne {m : List (Nat × Nat)} {i child : Nat} (v : Nat) (hv : v ≠ child) :
    alGet (markStep m child i) v = alGet m v := by
  unfold markStep
  cases h : alGet m child with
  | none => exact alGet_alSet_ne m i hv
  | some iold =>
    show alGet (if iold < i then alSet m child i else m) v = alGet m v
    by_cases hlt : iold < i
    · rw [if_pos hlt]
      exact alGet_alSet_ne m i hv
    · rw [if_neg hlt]

theorem markStep_self {m : List (Nat × Nat)} {i child : Nat} :
    ∃ x, alGet (markStep m child i) child = some x ∧
      i ≤ x ∧ ∀ old, alGet m child = some old → old ≤ x := by
  unfold markStep
  cases h : alGet m child with
  | none =>
    refine ⟨i, alGet_alSet_self m child i, le_refl i, ?_⟩
    intro old hold
    cases hold
  | some iold =>
    show ∃ x, alGet (if iold < i then alSet m child i else m) child = some x ∧
      i ≤ x ∧ ∀ old, some iold = some old → old ≤ x
    by_cases hlt : iold < i
    · rw [if_pos hlt]
      refine ⟨i, alGet_alSet_self m child i, le_refl i, ?_⟩
      intro old hold
      cases hold
      omega
    · rw [if_neg hlt]
      refine ⟨iold, h, by omega, ?_⟩
      intro old hold
      cases hold
      omega

theorem markStep_prov {m : List (Nat × Nat)} {i child : Nat} (v x : Nat)
    (h : alGet (markStep m child i) v = some x) :
    alGet m v = some x ∨ (v = child ∧ x = i) := by
  by_cases hv : v = child
  · subst hv
    unfold markStep at h
    cases h0 : alGet m v with
    | none =>
      rw [h0] at h
      have h2 : alGet (alSet m v i) v = some x := h
      rw [alGet_alSet_self] at h2
      cases h2
      exact Or.inr ⟨rfl, rfl⟩
    | some iold =>
      rw [h0] at h
      have h2 : alGet (if iold < i then alSet m v i else m) v = some x := h
      by_cases hlt : iold < i
      · rw [if_pos hlt, alGet_alSet_self] at h2
        cases h2
        exact Or.inr ⟨rfl, rfl⟩
      · rw [if_neg hlt] at h2
        exact Or.inl (h0.symm.trans h2)
  · rw [markStep_ne v hv] at h
    exact Or.inl h

theorem markStep_keys {m : List (Nat × Nat)} {i child : Nat}
    (h : (m.map Prod.fst).Nodup) : ((markStep m child i).map Prod.fst).Nodup := by
  unfold markStep
  cases h0 : alGet m child with
  | none => exact alSet_keys_nodup child i h
  | some iold =>
    show ((if iold < i then alSet m child i else m).map Prod.fst).Nodup
    by_cases hlt : iold < i
    · rw [if_pos hlt]
      exact alSet_keys_nodup child i h
    · rw [if_neg hlt]
      exact h

theorem markFold_mono (i : Nat) :
    ∀ (cs : List Nat) (m q : List (Nat × Nat)) (v mv : Nat),
      alGet m v = some mv →
      ∃ mv', alGet (markFold i cs (m, q)).1 v = some mv' ∧ mv ≤ mv' := by
  intro cs
  induction cs with
  | nil => intro m q v mv h; exact ⟨mv, h, le_refl mv⟩
  | cons child cs ih =>
    intro m q v mv h
    simp only [markFold]
    by_cases hv : v = child
    · subst hv
      obtain ⟨x, hx, _, hold⟩ := markStep_self
      obtain ⟨mv', hmv', hle⟩ := ih _ _ v x hx
      exact ⟨mv', hmv', le_trans (hold mv h) hle⟩
    · exact ih _ _ v mv (by rw [markStep_ne v hv]; exact h)

theorem markFold_elem (i : Nat) :
    ∀ (cs : List Nat) (m q : List (Nat × Nat)) (c : Nat), c ∈ cs →
      ∃ mv', alGet (markFold i cs (m, q)).1 c = some mv' ∧ i ≤ mv' := by
  intro cs
  induction cs with
  | nil => intro m q c hc; simp at hc
  | cons child cs ih =>
    intro m q c hc
    simp only [markFold]
    rcases List.mem_cons.mp hc with rfl | hc2
    · obtain ⟨x, hx, hix, _⟩ := markStep_self
      obtain ⟨mv', hmv', hle⟩ := markFold_mono i cs _ _ c x hx
      exact ⟨mv', hmv', le_trans hix hle⟩
    · exact ih _ _ c hc2

theorem markFold_prov (i : Nat) :
    ∀ (cs : List Nat) (m q : List (Nat × Nat)) (v x : Nat),
      alGet (markFold i cs (m, q)).1 v = some x →
      alGet m v = some x ∨ (v ∈ cs ∧ x = i) := by
  intro cs
  induction cs with
  | nil => intro m q v x h; exact Or.inl h
  | cons child cs ih =>
    intro m q v x h
    simp only [markFold] at h
    rcases ih _ _ v x h with h2 | h2
    · rcases markStep_prov v x h2 with h3 | h3
      · exact Or.inl h3
      · exact Or.inr ⟨h3.1 ▸ List.mem_cons_self _ _, h3.2⟩
    · exact Or.inr ⟨List.mem_cons_of_mem _ h2.1, h2.2⟩

theorem markFold_keys (i : Nat) :
    ∀ (cs : List Nat) (m q : List (Nat × Nat)), (m.map Prod.fst).Nodup →
      ((markFold i cs (m, q)).1.map Prod.fst).Nodup := by
  intro cs
  induction cs with
  | nil => intro m q h; exact h
  | cons child cs ih =>
    intro m q h
    simp only [markFold]
    exact ih _ _ (markStep_keys h)

theorem markLoop_inv {g : Graph} {anc : List Nat} (P M : Nat → Nat → Prop)
    (Hstep : ∀ i dep, P i dep →
      ∀ c ∈ (dedupList (g.chl dep)).filter (fun d => decide (d ∈ anc)), P (i + 1) c)
    (Hmark : ∀ i dep, P i dep →
      ∀ c ∈ (dedupList (g.chl dep)).filter (fun d => decide (d ∈ anc)), M c i) :
    ∀ (fuel : Nat) (queue marks marks' : List (Nat × Nat)),
      markLoop g anc fuel queue marks = some marks' →
      (∀ iv ∈ queue, P iv.1 iv.2) →
      (∀ v mv, alGet marks v = some mv → M v mv) →
      ∀ v mv, alGet marks' v = some mv → M v mv := by
  intro fuel
  induction fuel with
  | zero => intro queue marks marks' h; cases h
  | succ fuel ih =>
    intro queue marks marks' h hq hm
    cases queue with
    | nil =>
      simp only [markLoop, Option.some.injEq] at h
      subst h
      exact hm
    | cons iv rest =>
      obtain ⟨i, dep⟩ := iv
      simp only [markLoop] at h
      have hP : P i dep := hq (i, dep) (List.mem_cons_self _ _)
      refine ih _ _ _ h ?_ ?_
      · intro jv hjv
        rcases List.mem_append.mp hjv with h2 | h2
        · exact hq jv (List.mem_cons_of_mem _ h2)
        · rw [markFold_queue] at h2
          rcases List.mem_append.mp h2 with h3 | h3
          · simp at h3
          · obtain ⟨c, hc, he⟩ := List.mem_map.mp h3
            subst he
            exact Hstep i dep hP c hc
      · intro v mv hv
        rcases markFold_prov i _ _ _ v mv hv with h2 | h2
        · exact hm v mv h2
        · rw [h2.2]
          exact Hmark i dep hP v h2.1

theorem markLoop_complete {g : Graph} {anc : List Nat} :
    ∀ (fuel : Nat) (queue marks marks' : List (Nat × Nat)),
      markLoop g anc fuel queue marks = some marks' →
      (∀ v mv, alGet marks v = some mv → ∃ mv', alGet marks' v = some mv' ∧ mv ≤ mv') ∧
      (∀ i d, (i, d) ∈ queue → ∀ l v, GChain g.chl d l v → l ≠ [] → (∀ x ∈ l, x ∈ anc) →
        ∃ mv', alGet marks' v = some mv' ∧ i + l.length - 1 ≤ mv') := by
  intro fuel
  induction fuel with
  | zero => intro queue marks marks' h; cases h
  | succ fuel ih =>
    intro queue marks marks' h
    cases queue with
    | nil =>
      simp only [markLoop, Option.some.injEq] at h
      subst h
      constructor
      · exact fun v mv hv => ⟨mv, hv, le_refl mv⟩
      · intro i d hid
        simp at hid
    | cons iv rest =>
      obtain ⟨i0, dep⟩ := iv
      simp only [markLoop] at h
      obtain ⟨iha, ihb⟩ := ih _ _ _ h
      have hmono : ∀ v mv, alGet marks v = some mv →
          ∃ mv', alGet marks' v = some mv' ∧ mv ≤ mv' := by
        intro v mv hv
        obtain ⟨x, hx, hle⟩ := markFold_mono i0 _ marks [] v mv hv
        obtain ⟨mv', hmv', hle2⟩ := iha v x hx
        exact ⟨mv', hmv', le_trans hle hle2⟩
      refine ⟨hmono, ?_⟩
      intro i d hid l v hch hne hanc
      rcases List.mem_cons.mp hid with he | h2
      · have hii : i = i0 := congrArg Prod.fst he
        have hdd : d = dep := congrArg Prod.snd he
        subst hii
        subst hdd
        cases hch with
        | nil => exact absurd rfl hne
        | cons hedge hch2 =>
          rename_i c l2
          have hcanc : c ∈ anc := hanc c (List.mem_cons_self _ _)
          have hcs : c ∈ (dedupList (g.chl d)).filter (fun x => decide (x ∈ anc)) := by
            rw [List.mem_filter]
            exact ⟨mem_dedupList.mpr hedge, by simp [hcanc]⟩
          cases l2 with
          | nil =>
            cases hch2
            obtain ⟨x, hx, hix⟩ := markFold_elem i _ marks [] v hcs
            obtain ⟨mv', hmv', hle⟩ := iha v x hx
            refine ⟨mv', hmv', ?_⟩
            simp only [List.length_cons, List.length_nil]
            omega
          | cons y l3 =>
            have hqmem : (i + 1, c) ∈
                rest ++ (markFold i ((dedupList (g.chl d)).filter
                  (fun x => decide (x ∈ anc))) (marks, [])).2 := by
              rw [markFold_queue]
              refine List.mem_append.mpr (Or.inr ?_)
              refine List.mem_append.mpr (Or.inr ?_)
              exact List.mem_map.mpr ⟨c, hcs, rfl⟩
            obtain ⟨mv', hmv', hle⟩ := ihb (i + 1) c hqmem (y :: l3) v hch2 (by simp)
              (fun x hx => hanc x (List.mem_cons_of_mem _ hx))
            refine ⟨mv', hmv', ?_⟩
            simp only [List.length_cons] at hle ⊢
            omega
      · exact ihb i d (List.mem_append.mpr (Or.inl h2)) l v hch hne hanc

theorem markLoop_keys {g : Graph} {anc : List Nat} :
    ∀ (fuel : Nat) (queue marks marks' : List (Nat × Nat)),
      markLoop g anc fuel queue marks = some marks' →
      (marks.map Prod.fst).Nodup → (marks'.map Prod.fst).Nodup := by
  intro fuel
  induction fuel with
  | zero => intro queue marks marks' h; cases h
  | succ fuel ih =>
    intro queue marks marks' h hnd
    cases queue with
    | nil =>
      simp only [markLoop, Option.some.injEq] at h
      subst h
      exact hnd
    | cons iv rest =>
      obtain ⟨i0, dep⟩ := iv
      simp only [markLoop] at h
      exact ih _ _ _ h (markFold_keys i0 _ marks [] hnd)

/-!
Lemmas about the ordering of buildall's stages (the grouping of the
breadth-first marks) and the longest-path meaning of the marks.
-/

theorem GChain.last_mem {adj : Nat → List Nat} {a c : Nat} {l : List Nat}
    (h : GChain adj a l c) (hne : l ≠ []) : c ∈ l := by
  induction h with
  | nil => exact absurd rfl hne
  | cons hedge h0 ih =>
    rename_i p q r lr
    cases lr with
    | nil =>
      cases h0
      exact List.mem_cons_self _ _
    | cons y ys => exact List.mem_cons_of_mem _ (ih (by simp))

theorem chain_mem_reach {adj : Nat → List Nat} {a c : Nat} {l : List Nat}
    (h : GChain adj a l c) : ∀ w ∈ l, ∃ k, GReach adj w c k := by
  induction h with
  | nil => simp
  | cons hedge h0 ih =>
    rename_i p q r lr
    intro w hw
    rcases List.mem_cons.mp hw with rfl | hw2
    · exact ⟨lr.length, h0.toReach⟩
    · exact ih w hw2

theorem insertAt_mem :
    ∀ (i : Nat) (groups : List (List (Nat × Reason))) (x : Nat × Reason)
      (k : Nat) (st : List (Nat × Reason)) (e : Nat × Reason),
      (insertAt groups i x).get? k = some st → e ∈ st →
      (∃ st0, groups.get? k = some st0 ∧ e ∈ st0) ∨ (e = x ∧ k = i) := by
  intro i
  induction i with
  | zero =>
    intro groups x k st e hst he
    cases groups with
    | nil =>
      cases k with
      | zero =>
        simp only [insertAt, List.get?] at hst
        cases hst
        simp only [List.mem_singleton] at he
        exact Or.inr ⟨he, rfl⟩
      | succ k => simp [insertAt, List.get?] at hst
    | cons gs rest =>
      cases k with
      | zero =>
        simp only [insertAt, List.get?] at hst
        cases hst
        rcases List.mem_append.mp he with h2 | h2
        · exact Or.inl ⟨gs, rfl, h2⟩
        · simp only [List.mem_singleton] at h2
          exact Or.inr ⟨h2, rfl⟩
      | succ k =>
        simp only [insertAt, List.get?] at hst
        exact Or.inl ⟨st, hst, he⟩
  | succ i ih =>
    intro groups x k st e hst he
    cases groups with
    | nil =>
      cases k with
      | zero =>
        simp only [insertAt, List.get?] at hst
        cases hst
        simp at he
      | succ k =>
        simp only [insertAt, List.get?] at hst
        rcases ih [] x k st e hst he with ⟨st0, h0, _⟩ | ⟨he2, hk⟩
        · simp [List.get?] at h0
        · exact Or.inr ⟨he2, by omega⟩
    | cons gs rest =>
      cases k with
      | zero =>
        simp only [insertAt, List.get?] at hst
        cases hst
        exact Or.inl ⟨st, rfl, he⟩
      | succ k =>
        simp only [insertAt, List.get?] at hst
        rcases ih rest x k st e hst he with ⟨st0, h0, he0⟩ | ⟨he2, hk⟩
        · exact Or.inl ⟨st0, h0, he0⟩
        · exact Or.inr ⟨he2, by omega⟩

theorem buildGroups_mem {g : Graph} {fs : FS} {fuel : Nat} :
    ∀ (marksl : List (Nat × Nat)) (groups0 groups' : List (List (Nat × Reason))),
      buildGroups g fs fuel marksl groups0 = some groups' →
      ∀ k st e, groups'.get? k = some st → e ∈ st →
        (∃ st0, groups0.get? k = some st0 ∧ e ∈ st0) ∨ (e.1, k) ∈ marksl := by
  intro marksl
  induction marksl with
  | nil =>
    intro groups0 groups' h k st e hst he
    simp only [buildGroups, Option.some.injEq] at h
    subst h
    exact Or.inl ⟨st, hst, he⟩
  | cons di rest ih =>
    intro groups0 groups' h k st e hst he
    obtain ⟨dep, i⟩ := di
    simp only [buildGroups] at h
    cases hnb : needsbuildAll g fs fuel dep with
    | none => rw [hnb] at h; cases h
    | some w =>
      rw [hnb] at h
      cases w with
      | none =>
        rcases ih groups0 groups' h k st e hst he with h2 | h2
        · exact Or.inl h2
        · exact Or.inr (List.mem_cons_of_mem _ h2)
      | some r =>
        rcases ih _ groups' h k st e hst he with ⟨st0, h0, he0⟩ | h2
        · rcases insertAt_mem i groups0 (dep, r) k st0 e h0 he0 with h3 | ⟨he3, hk3⟩
          · exact Or.inl h3
          · refine Or.inr (List.mem_cons.mpr (Or.inl ?_))
            rw [he3, hk3]
        · exact Or.inr (List.mem_cons_of_mem _ h2)

theorem marksOf_inv {g : Graph} {fuel t : Nat} {marks : List (Nat × Nat)}
    (h : marksOf g fuel t = some marks) :
    ∃ anc rts, traverseF g.par fuel (-1) t = some anc ∧ rootsF g fuel t = some rts ∧
      markLoop g anc fuel (rts.map (fun r => (0, r))) [] = some marks := by
  unfold marksOf at h
  split at h
  · cases h
  · rename_i anc hanc
    split at h
    · cases h
    · rename_i rts hrts
      exact ⟨anc, rts, hanc, hrts, h⟩

theorem buildall_ok_inv {g : Graph} {fs : FS} {fuel t : Nat}
    {stages : List (List (Nat × Reason))}
    (h : buildall g fs fuel t = some (Except.ok stages)) :
    ∃ marks groups, is_acyclic g fuel t = some true ∧ marksOf g fuel t = some marks ∧
      buildGroups g fs fuel marks [] = some groups ∧
      ((needsbuildAll g fs fuel t = some none ∧ stages = groups) ∨
       (∃ r, needsbuildAll g fs fuel t = some (some r) ∧
         stages = groups ++ [[(t, Reason.missing)]])) := by
  unfold buildall at h
  split at h
  · cases h
  · simp at h
  · rename_i hacy
    split at h
    · cases h
    · rename_i marks hmk
      split at h
      · cases h
      · rename_i groups hbg
        split at h
        · cases h
        · rename_i r hnb
          simp only [Option.some.injEq, Except.ok.injEq] at h
          exact ⟨marks, groups, hacy, hmk, hbg, Or.inr ⟨r, hnb, h.symm⟩⟩
        · rename_i hnb
          simp only [Option.some.injEq, Except.ok.injEq] at h
          exact ⟨marks, groups, hacy, hmk, hbg, Or.inl ⟨hnb, h.symm⟩⟩

theorem buildall_entry {g : Graph} {fs : FS} {fuel t : Nat}
    {stages : List (List (Nat × Reason))}
    (h : buildall g fs fuel t = some (Except.ok stages)) :
    ∃ marks groups, marksOf g fuel t = some marks ∧
      buildGroups g fs fuel marks [] = some groups ∧
      ∀ k st e, stages.get? k = some st → e ∈ st →
        ((e.1, k) ∈ marks ∧ k < groups.length) ∨
        (e = (t, Reason.missing) ∧ k = groups.length) := by
  obtain ⟨marks, groups, _, hmk, hbg, hsh⟩ := buildall_ok_inv h
  refine ⟨marks, groups, hmk, hbg, ?_⟩
  intro k st e hst he
  have main : ∀ st', groups.get? k = some st' → e ∈ st' →
      (e.1, k) ∈ marks ∧ k < groups.length := by
    intro st' hst' he'
    have hk : k < groups.length := by
      by_contra hk
      rw [List.get?_len_le (Nat.le_of_not_lt hk)] at hst'
      cases hst'
    rcases buildGroups_mem marks [] groups hbg k st' e hst' he' with ⟨st0, h0, _⟩ | h2
    · have h00 : ([] : List (List (Nat × Reason))).get? k = none :=
        List.get?_len_le (by simp)
      rw [h00] at h0
      cases h0
    · exact ⟨h2, hk⟩
  rcases hsh with ⟨_, rfl⟩ | ⟨r, _, rfl⟩
  · exact Or.inl (main st hst he)
  · rcases Nat.lt_trichotomy k groups.length with hlt | heq | hgt
    · rw [List.get?_append hlt] at hst
      exact Or.inl (main st hst he)
    · subst heq
      rw [List.get?_concat_length] at hst
      cases hst
      simp only [List.mem_singleton] at he
      exact Or.inr ⟨he, rfl⟩
    · have h00 : (groups ++ [[(t, Reason.missing)]]).get? k = none := by
        refine List.get?_len_le ?_
        simp only [List.length_append, List.length_singleton]
        omega
      rw [h00] at hst
      cases hst

theorem marks_sound {g : Graph} {anc rts : List Nat} {fuel : Nat}
    {marks : List (Nat × Nat)}
    (hml : markLoop g anc fuel (rts.map (fun r => (0, r))) [] = some marks) :
    ∀ v mv, alGet marks v = some mv →
      ∃ r, r ∈ rts ∧ ∃ l, GChain g.chl r l v ∧ l.length = mv + 1 ∧
        ∀ x ∈ l, x ∈ anc := by
  refine markLoop_inv
    (fun i d => ∃ r, r ∈ rts ∧ ∃ l, GChain g.chl r l d ∧ l.length = i ∧
      ∀ x ∈ l, x ∈ anc)
    (fun v mv => ∃ r, r ∈ rts ∧ ∃ l, GChain g.chl r l v ∧ l.length = mv + 1 ∧
      ∀ x ∈ l, x ∈ anc)
    ?_ ?_ fuel _ [] marks hml ?_ ?_
  · rintro i dep ⟨r, hr, l, hch, hlen, hsub⟩ c hc
    rw [List.mem_filter] at hc
    have hedge : c ∈ g.chl dep := mem_dedupList.mp hc.1
    have hcanc : c ∈ anc := of_decide_eq_true hc.2
    refine ⟨r, hr, l ++ [c], hch.snoc hedge, by simp [hlen], ?_⟩
    intro x hx
    rcases List.mem_append.mp hx with h2 | h2
    · exact hsub x h2
    · simp only [List.mem_singleton] at h2
      subst h2
      exact hcanc
  · rintro i dep ⟨r, hr, l, hch, hlen, hsub⟩ c hc
    rw [List.mem_filter] at hc
    have hedge : c ∈ g.chl dep := mem_dedupList.mp hc.1
    have hcanc : c ∈ anc := of_decide_eq_true hc.2
    refine ⟨r, hr, l ++ [c], hch.snoc hedge, by simp [hlen], ?_⟩
    intro x hx
    rcases List.mem_append.mp hx with h2 | h2
    · exact hsub x h2
    · simp only [List.mem_singleton] at h2
      subst h2
      exact hcanc
  · intro iv hiv
    obtain ⟨r, hr, rfl⟩ := List.mem_map.mp hiv
    exact ⟨r, hr, [], GChain.nil r, rfl, by simp⟩
  · intro v mv hv
    simp [alGet] at hv

theorem anc_upward {g : Graph} {fuel : Nat} {t : Nat} {anc : List Nat}
    (htr : traverseF g.par fuel (-1) t = some anc) :
    ∀ a b k, a ∈ anc → GReach g.par a b k → b ∈ anc := by
  intro a b k ha hr
  obtain ⟨na, hna, hta⟩ := traverse_sound htr a ha
  have hcomb : GReach g.par t b (na + k) := hta.append hr
  have h1 : na + k = (na + k - 1) + 1 := by omega
  exact traverse_complete (by norm_num) htr b (na + k - 1) (h1 ▸ hcomb)

/-- Claim C2, counterexample: the code contains no BuildUnsatisfiable (or
any other unsatisfiability) error.  On cg2 with an empty filesystem, node
0 is required for the target (node 1), is absent from disk and has no
parents, yet buildall completes normally and yields a build stage instead
of failing. -/
theorem claim_C2_counterexample :
    buildall cg2 fsNone 15 1 = some (Except.ok [[(1, Reason.missing)]]) ∧
    cg2.par 0 = [] ∧ fsNone (cg2.name 0) = none ∧ GReach cg2.par 1 0 1 := by
  refine ⟨rfl, by decide, rfl, GReach.single (by decide)⟩

/-- Claim C2, amended: buildall never fails on an unsatisfiable input; the
provable remnant of the claim is that a parentless dataset other than the
target is never scheduled in any stage (every staged non-target dataset
was marked by the breadth-first walk, hence is the endpoint of a nonempty
child-edge chain, so it has a parent). -/
theorem claim_C2 (g : Graph) (fs : FS) (fuel t : Nat)
    (stages : List (List (Nat × Reason))) (hsym : SymmWf g)
    (hcomp : buildall g fs fuel t = some (Except.ok stages)) :
    ∀ k st x rx, stages.get? k = some st → (x, rx) ∈ st → g.par x = [] → x = t := by
  obtain ⟨marks, groups, hmk, hbg, hentry⟩ := buildall_entry hcomp
  intro k st x rx hst hmem hpar
  rcases hentry k st (x, rx) hst hmem with ⟨hm, _⟩ | ⟨he, _⟩
  · obtain ⟨anc, rts, htr, hrt, hml⟩ := marksOf_inv hmk
    have hnd := markLoop_keys fuel _ [] marks hml (by simp)
    have halg : alGet marks x = some k := alGet_of_mem_nodupkeys hnd hm
    obtain ⟨r, hr, l, hch, hlen, hsub⟩ := marks_sound hml x k halg
    have hne : l ≠ [] := by
      intro h0
      rw [h0] at hlen
      simp at hlen
    obtain ⟨p, hp⟩ := hch.last_has_edge hne
    have hpx : p ∈ g.par x := (hsym p x).mpr hp
    rw [hpar] at hpx
    simp at hpx
  · exact congrArg Prod.fst he

/-- Claim C2, witness: on the one-node graph the (parentless) staged
dataset is indeed the target. -/
theorem claim_C2_witness :
    buildall (mkG (fun _ => "s")) fsNone 5 0 =
      some (Except.ok [[(0, Reason.missing)]]) ∧ (0 : Nat) = 0 := by
  refine ⟨rfl, ?_⟩
  exact claim_C2 (mkG (fun _ => "s")) fsNone 5 0 [[(0, Reason.missing)]]
    (symm_mkG _) rfl 0 [(0, Reason.missing)] 0 Reason.missing rfl
    (List.mem_singleton.mpr rfl) rfl

/-- Claim C1: for every graph (with consistent parent/child edges) and
every target, (a) in a completed buildall run, whenever a staged dataset v
transitively depends on a staged dataset u, u's stage index is strictly
below v's, so no dataset is scheduled before any of its dependency
chains; and (b) every breadth-first mark is the longest-path distance
from a root: a dataset marked m has a parentless ancestor at parent-edge
distance m + 1, and no parentless ancestor lies at a larger distance. -/
theorem claim_C1 (g : Graph) (fs : FS) (fuel t : Nat) (hsym : SymmWf g) :
    (∀ stages, buildall g fs fuel t = some (Except.ok stages) →
      ∀ iu ju su sv u ru v rv,
        stages.get? iu = some su → stages.get? ju = some sv →
        (u, ru) ∈ su → (v, rv) ∈ sv →
        (∃ n, 0 < n ∧ GReach g.par v u n) → iu < ju) ∧
    (∀ marks, marksOf g fuel t = some marks →
      ∀ v m, alGet marks v = some m →
        (∃ r n, g.par r = [] ∧ GReach g.par v r n ∧ n = m + 1) ∧
        (∀ r n, g.par r = [] → GReach g.par v r n → 0 < n → n ≤ m + 1)) := by
  constructor
  · intro stages hcomp iu ju su sv u ru v rv hsu hsv hu hv hdep
    obtain ⟨n, hn, hrvu⟩ := hdep
    obtain ⟨marks, groups, hmk, hbg, hentry⟩ := buildall_entry hcomp
    obtain ⟨anc, rts, htr, hrt, hml⟩ := marksOf_inv hmk
    have hnd := markLoop_keys fuel _ [] marks hml (by simp)
    have hnott : ∀ m2, 0 < m2 → ¬GReach g.par t t m2 := fun m2 hm2 hr =>
      traverse_noCycle (by norm_num) htr ⟨t, 0, m2, GReach.refl t, hm2, hr⟩
    rcases hentry iu su (u, ru) hsu hu with ⟨hmu, hku⟩ | ⟨heu, _⟩
    · rcases hentry ju sv (v, rv) hsv hv with ⟨hmv, _⟩ | ⟨hev, hkv⟩
      · have halgu : alGet marks u = some iu := alGet_of_mem_nodupkeys hnd hmu
        have halgv : alGet marks v = some ju := alGet_of_mem_nodupkeys hnd hmv
        obtain ⟨r, hr, l, hch, hlen, hsub⟩ := marks_sound hml u iu halgu
        have hvanc : v ∈ anc := by
          obtain ⟨rv2, _, lv, hchv, hlenv, hsubv⟩ := marks_sound hml v ju halgv
          have hnev : lv ≠ [] := by
            intro h0
            rw [h0] at hlenv
            simp at hlenv
          exact hsubv v (hchv.last_mem hnev)
        obtain ⟨l2, hch2, hlen2⟩ := GChain.ofReach (GReach.flip_par hsym hrvu)
        have hsub2 : ∀ x ∈ l2, x ∈ anc := by
          intro x hx
          obtain ⟨k, hk⟩ := chain_mem_reach hch2 x hx
          exact anc_upward htr v x k hvanc (GReach.flip_chl hsym hk)
        have hchrv : GChain g.chl r (l ++ l2) v := hch.glue hch2
        have hsubrv : ∀ x ∈ l ++ l2, x ∈ anc := by
          intro x hx
          rcases List.mem_append.mp hx with h2 | h2
          · exact hsub x h2
          · exact hsub2 x h2
        have hnerv : l ++ l2 ≠ [] := by
          intro h0
          have hz : (l ++ l2).length = 0 := by rw [h0]; rfl
          rw [List.length_append, hlen, hlen2] at hz
          omega
        obtain ⟨mv', halg2, hged⟩ := (markLoop_complete fuel _ [] marks hml).2 0 r
          (List.mem_map.mpr ⟨r, hr, rfl⟩) (l ++ l2) v hchrv hnerv hsubrv
        have hj := halgv.symm.trans halg2
        cases hj
        rw [List.length_append, hlen, hlen2] at hged
        omega
      · omega
    · exfalso
      have hut : u = t := congrArg Prod.fst heu
      subst hut
      rcases hentry ju sv (v, rv) hsv hv with ⟨hmv, _⟩ | ⟨hev, _⟩
      · have halgv : alGet marks v = some ju := alGet_of_mem_nodupkeys hnd hmv
        obtain ⟨rv2, _, lv, hchv, hlenv, hsubv⟩ := marks_sound hml v ju halgv
        have hnev : lv ≠ [] := by
          intro h0
          rw [h0] at hlenv
          simp at hlenv
        have hvanc : v ∈ anc := hsubv v (hchv.last_mem hnev)
        obtain ⟨nv, hnv, htv⟩ := traverse_sound htr v hvanc
        exact hnott (nv + n) (by omega) (htv.append hrvu)
      · have hvt : v = u := congrArg Prod.fst hev
        subst hvt
        exact hnott n hn hrvu
  · intro marks hmk v m halg
    obtain ⟨anc, rts, htr, hrt, hml⟩ := marksOf_inv hmk
    have hvanc : v ∈ anc := by
      obtain ⟨r0, _, l0, hch0, hlen0, hsub0⟩ := marks_sound hml v m halg
      have hne0 : l0 ≠ [] := by
        intro h0
        rw [h0] at hlen0
        simp at hlen0
      exact hsub0 v (hch0.last_mem hne0)
    constructor
    · obtain ⟨r, hr, l, hch, hlen, hsub⟩ := marks_sound hml v m halg
      have hroot : g.par r = [] := (roots_sound hrt r hr).1
      have hreach : GReach g.chl r v l.length := hch.toReach
      rw [hlen] at hreach
      exact ⟨r, m + 1, hroot, GReach.flip_chl hsym hreach, rfl⟩
    · intro r nr hroot hrv hnr
      obtain ⟨nv, hnv, htv⟩ := traverse_sound htr v hvanc
      have htr2 : GReach g.par t r (nv + nr) := htv.append hrv
      have hrrts : r ∈ rts := by
        have he : nv + nr - 1 + 1 = nv + nr := by omega
        exact roots_complete hrt r (nv + nr - 1) (by rw [he]; exact htr2) hroot
      obtain ⟨l2, hch2, hlen2⟩ := GChain.ofReach (GReach.flip_par hsym hrv)
      have hsub2 : ∀ x ∈ l2, x ∈ anc := by
        intro x hx
        obtain ⟨k, hk⟩ := chain_mem_reach hch2 x hx
        exact anc_upward htr v x k hvanc (GReach.flip_chl hsym hk)
      have hne2 : l2 ≠ [] := by
        intro h0
        rw [h0] at hlen2
        simp at hlen2
        omega
      obtain ⟨mv', halg2, hged⟩ := (markLoop_complete fuel _ [] marks hml).2 0 r
        (List.mem_map.mpr ⟨r, hrrts, rfl⟩) l2 v hch2 hne2 hsub2
      have hj := halg.symm.trans halg2
      cases hj
      rw [hlen2] at hged
      omega

/-- Claim C1, witness: on the test-fixture graph with target c0, stage 0
holds a1 and stage 1 holds b1 which depends on a1; and b0's mark 1 is
exactly the longest root distance minus one (a 2-step chain r0 to a0 to
b0 exists and none is longer). -/
theorem claim_C1_witness :
    (0 : Nat) < 1 ∧
    (∃ r n, cgFix.par r = [] ∧ GReach cgFix.par 6 r n ∧ n = 1 + 1) := by
  have hsym : SymmWf cgFix := by
    unfold cgFix
    exact symm_dependson (symm_dependson (symm_dependson (symm_dependson
      (symm_dependson (symm_dependson (symm_dependson (symm_mkG _) 4 [0, 1])
      5 [2]) 6 [4, 5]) 7 [5, 3]) 8 [6, 7]) 9 [7]) 10 [7]
  constructor
  · exact (claim_C1 cgFix fsFix 25 8 hsym).1
      [[(4, Reason.missing), (5, Reason.missing)],
       [(7, Reason.missing), (6, Reason.missing)],
       [(8, Reason.missing)]] rfl
      0 1 [(4, Reason.missing), (5, Reason.missing)]
      [(7, Reason.missing), (6, Reason.missing)]
      5 Reason.missing 7 Reason.missing rfl rfl (by decide) (by decide)
      ⟨1, Nat.one_pos, GReach.single (by decide)⟩
  · exact ((claim_C1 cgFix fsFix 25 8 hsym).2
      [(4, 0), (5, 0), (7, 1), (6, 1)] rfl 6 1 rfl).1

/-!
Lemmas about the executor of buildmanager.
-/

theorem alBump_self (l : List (Nat × Nat)) (k : Nat) :
    (alGet (alBump l k) k).getD 0 = (alGet l k).getD 0 + 1 := by
  unfold alBump
  rw [alGet_alSet_self]
  rfl

theorem alBump_ne (l : List (Nat × Nat)) {k d : Nat} (h : d ≠ k) :
    alGet (alBump l k) d = alGet l d := by
  unfold alBump
  exact alGet_alSet_ne l _ h

theorem stepDep_inv {dele : Delegator} {maxA : Nat} {onf : OnFailure}
    (hfail : ∀ d r f, ∃ f1, dele d r f = Except.error f1)
    (acc : Except ExecSt (ExecSt × Bool)) (dr : Nat × Reason)
    (h : ExInv maxA acc) : ExInv maxA (stepDep dele maxA onf acc dr) := by
  cases acc with
  | error e => exact h
  | ok p =>
    obtain ⟨st, noop⟩ := p
    have hsync : CallsSync maxA st := h
    simp only [stepDep]
    split
    · rename_i hguard
      obtain ⟨f1, hf1⟩ := hfail dr.1 dr.2 st.fs
      rw [hf1]
      cases onf with
      | raise =>
        have hres : CallsBound maxA
            { st with fs := f1, calls := alBump st.calls dr.1 } := by
          intro d
          by_cases hd : d = dr.1
          · subst hd
            show (alGet (alBump st.calls dr.1) dr.1).getD 0 ≤ maxA
            rw [alBump_self]
            have h1 := (hsync dr.1).1
            have h2 : attemptsOf st dr.1 < maxA := hguard
            unfold callsOf attemptsOf at h1 h2
            omega
          · show (alGet (alBump st.calls dr.1) d).getD 0 ≤ maxA
            rw [alBump_ne st.calls hd]
            have h1 := (hsync d).1
            have h2 := (hsync d).2
            unfold callsOf attemptsOf at h1 h2
            omega
        exact hres
      | print =>
        have hres : CallsSync maxA
            { fs := f1, attempts := alBump st.attempts dr.1,
              calls := alBump st.calls dr.1 } := by
          intro d
          by_cases hd : d = dr.1
          · subst hd
            show (alGet (alBump st.calls dr.1) dr.1).getD 0 =
                (alGet (alBump st.attempts dr.1) dr.1).getD 0 ∧
              (alGet (alBump st.attempts dr.1) dr.1).getD 0 ≤ maxA
            rw [alBump_self, alBump_self]
            have h1 := (hsync dr.1).1
            have h2 : attemptsOf st dr.1 < maxA := hguard
            unfold callsOf attemptsOf at h1 h2
            omega
          · show (alGet (alBump st.calls dr.1) d).getD 0 = (alGet (alBump st.attempts dr.1) d).getD 0 ∧
              (alGet (alBump st.attempts dr.1) d).getD 0 ≤ maxA
            rw [alBump_ne st.calls hd, alBump_ne st.attempts hd]
            exact hsync d
        exact hres
      | ignore =>
        have hres : CallsSync maxA
            { fs := f1, attempts := alBump st.attempts dr.1,
              calls := alBump st.calls dr.1 } := by
          intro d
          by_cases hd : d = dr.1
          · subst hd
            show (alGet (alBump st.calls dr.1) dr.1).getD 0 =
                (alGet (alBump st.attempts dr.1) dr.1).getD 0 ∧
              (alGet (alBump st.attempts dr.1) dr.1).getD 0 ≤ maxA
            rw [alBump_self, alBump_self]
            have h1 := (hsync dr.1).1
            have h2 : attemptsOf st dr.1 < maxA := hguard
            unfold callsOf attemptsOf at h1 h2
            omega
          · show (alGet (alBump st.calls dr.1) d).getD 0 = (alGet (alBump st.attempts dr.1) d).getD 0 ∧
              (alGet (alBump st.attempts dr.1) d).getD 0 ≤ maxA
            rw [alBump_ne st.calls hd, alBump_ne st.attempts hd]
            exact hsync d
        exact hres
    · exact h

theorem runStage_inv {dele : Delegator} {maxA : Nat} {onf : OnFailure}
    (hfail : ∀ d r f, ∃ f1, dele d r f = Except.error f1) :
    ∀ (stage : List (Nat × Reason)) (acc : Except ExecSt (ExecSt × Bool)),
      ExInv maxA acc → ExInv maxA (runStage dele maxA onf acc stage) := by
  intro stage
  induction stage with
  | nil => exact fun acc h => h
  | cons dr rest ih =>
    intro acc h
    exact ih _ (stepDep_inv hfail acc dr h)

theorem runGroups_inv {dele : Delegator} {maxA : Nat} {onf : OnFailure}
    (hfail : ∀ d r f, ∃ f1, dele d r f = Except.error f1) :
    ∀ (groups : List (List (Nat × Reason))) (acc : Except ExecSt (ExecSt × Bool)),
      ExInv maxA acc → ExInv maxA (groups.foldl (runStage dele maxA onf) acc) := by
  intro groups
  induction groups with
  | nil => exact fun acc h => h
  | cons stg rest ih =>
    intro acc h
    exact ih _ (runStage_inv hfail stg acc h)

theorem sweep_inv {g : Graph} {dele : Delegator} {maxA : Nat} {onf : OnFailure}
    {fuelP t : Nat} {st : ExecSt} {res : Except ExecSt (ExecSt × Bool)}
    (hfail : ∀ d r f, ∃ f1, dele d r f = Except.error f1)
    (h : sweep g dele maxA onf fuelP t st = some res)
    (hst : CallsSync maxA st) : ExInv maxA res := by
  unfold sweep at h
  split at h
  · cases h
  · simp only [Option.some.injEq] at h
    subst h
    have hres : CallsBound maxA st := by
      intro d
      rw [(hst d).1]
      exact (hst d).2
    exact hres
  · split at h
    · cases h
    · split at h
      · cases h
      · rename_i groups hbg
        split at h
        · rename_i e heq
          simp only [Option.some.injEq] at h
          subst h
          have hinv : ExInv maxA (Except.error e) := by
            rw [← heq]
            exact runGroups_inv hfail groups _ hst
          exact hinv
        · rename_i st1 noop1 heq
          have hok : ExInv maxA (Except.ok (st1, noop1)) := by
            rw [← heq]
            exact runGroups_inv hfail groups _ hst
          split at h
          · cases h
          · simp only [Option.some.injEq] at h
            subst h
            exact runStage_inv hfail [(t, Reason.missing)] _ hok
          · simp only [Option.some.injEq] at h
            subst h
            exact hok

theorem execLoop_inv {g : Graph} {dele : Delegator} {maxA : Nat} {onf : OnFailure}
    {fuelP t : Nat} (hfail : ∀ d r f, ∃ f1, dele d r f = Except.error f1) :
    ∀ (fuel : Nat) (st : ExecSt) (res : Except ExecSt ExecSt),
      execLoop g dele maxA onf fuelP t fuel st = some res →
      CallsSync maxA st → CallsBound maxA (exSt res) := by
  intro fuel
  induction fuel with
  | zero => intro st res h; cases h
  | succ fuel ih =>
    intro st res h hst
    simp only [execLoop] at h
    split at h
    · cases h
    · rename_i e heq
      simp only [Option.some.injEq] at h
      subst h
      exact sweep_inv hfail heq hst
    · rename_i st1 noop heq
      have hs1 : CallsSync maxA st1 := sweep_inv hfail heq hst
      split at h
      · simp only [Option.some.injEq] at h
        subst h
        intro d
        show callsOf st1 d ≤ maxA
        rw [(hs1 d).1]
        exact (hs1 d).2
      · exact ih st1 res h hs1

theorem stepDep_zero (dele : Delegator) (onf : OnFailure)
    (acc : Except ExecSt (ExecSt × Bool)) (dr : Nat × Reason) :
    stepDep dele 0 onf acc dr = acc := by
  cases acc with
  | error e => rfl
  | ok p =>
    obtain ⟨st, noop⟩ := p
    simp only [stepDep]
    exact if_neg (Nat.not_lt_zero _)

theorem runStage_zero (dele : Delegator) (onf : OnFailure) :
    ∀ (stage : List (Nat × Reason)) (acc : Except ExecSt (ExecSt × Bool)),
      runStage dele 0 onf acc stage = acc := by
  intro stage
  induction stage with
  | nil => exact fun acc => rfl
  | cons dr rest ih =>
    intro acc
    show runStage dele 0 onf (stepDep dele 0 onf acc dr) rest = acc
    rw [stepDep_zero]
    exact ih acc

theorem runGroups_zero (dele : Delegator) (onf : OnFailure) :
    ∀ (groups : List (List (Nat × Reason))) (acc : Except ExecSt (ExecSt × Bool)),
      groups.foldl (runStage dele 0 onf) acc = acc := by
  intro groups
  induction groups with
  | nil => exact fun acc => rfl
  | cons stg rest ih =>
    intro acc
    show rest.foldl (runStage dele 0 onf) (runStage dele 0 onf acc stg) = acc
    rw [runStage_zero]
    exact ih acc

theorem sweep_zero {g : Graph} {dele : Delegator} {onf : OnFailure}
    {fuelP t : Nat} (st : ExecSt) {stages : List (List (Nat × Reason))}
    (hba : buildall g st.fs fuelP t = some (Except.ok stages)) :
    sweep g dele 0 onf fuelP t st = some (Except.ok (st, true)) := by
  obtain ⟨marks, groups, hacy, hmk, hbg, hdisj⟩ := buildall_ok_inv hba
  rcases hdisj with ⟨hw, _⟩ | ⟨r, hw, _⟩
  · simp only [sweep, hacy, hmk, hbg, runGroups_zero, hw]
  · simp only [sweep, hacy, hmk, hbg, runGroups_zero, hw, runStage_zero]

theorem buildmanager_zero {g : Graph} {fs : FS} {dele : Delegator} {t : Nat}
    {onf : OnFailure} {fuelP lf : Nat} {stages : List (List (Nat × Reason))}
    (hba : buildall g fs fuelP t = some (Except.ok stages)) :
    buildmanager g fs dele t 0 onf fuelP (lf + 1) =
      some (Except.ok { fs := fs, attempts := [], calls := [] }) := by
  unfold buildmanager
  simp [execLoop, sweep_zero { fs := fs, attempts := [], calls := [] } hba]

theorem worker_calls (fn : Nat → Except Unit Bool) :
    ∀ (rem calls : Nat) (success : Bool),
      (worker fn rem calls success).2 = calls + rem := by
  intro rem
  induction rem with
  | zero => intro calls success; rfl
  | succ rem ih =>
    intro calls success
    simp only [worker]
    cases fn calls with
    | ok b =>
      rw [ih]
      omega
    | error e =>
      rw [ih]
      omega

/-- Claim C9: (a) under a delegator that fails on every invocation, the
buildmanager executor invokes the delegator at most maxAttempts times per
dataset, for every failure policy; (b) with maxAttempts = 0 the delegator
is never invoked: the executor finishes immediately with the filesystem
unchanged, empty attempts and zero recorded calls; (c) the manager.py
worker performs exactly one invocation per remaining attempt — m
invocations for budget m, none for budget 0. -/
theorem claim_C9 (g : Graph) (fs : FS) (dele : Delegator) (t maxA : Nat)
    (onf : OnFailure) (fuelP loopFuel : Nat) :
    (∀ res, (∀ d r f, ∃ f1, dele d r f = Except.error f1) →
      buildmanager g fs dele t maxA onf fuelP loopFuel = some res →
      ∀ d, callsOf (exSt res) d ≤ maxA) ∧
    (∀ stages lf, buildall g fs fuelP t = some (Except.ok stages) →
      buildmanager g fs dele t 0 onf fuelP (lf + 1) =
        some (Except.ok { fs := fs, attempts := [], calls := [] })) ∧
    (∀ (fn : Nat → Except Unit Bool) (m : Nat),
      (worker fn m 0 false).2 = m ∧ worker fn 0 0 false = (false, 0)) := by
  refine ⟨?_, ?_, ?_⟩
  · intro res hfail h d
    refine execLoop_inv hfail loopFuel _ res h ?_ d
    intro d0
    exact ⟨rfl, Nat.zero_le _⟩
  · intro stages lf hba
    exact buildmanager_zero hba
  · intro fn m
    constructor
    · rw [worker_calls]
      omega
    · rfl

/-- Claim C9, witness: on the p-q-r chain with only p on disk and an
always-raising delegator, the executor under the ignore policy records at
most one call for dataset 1; with maxAttempts = 0 it returns at once with
nothing built; and the worker with budget 3 makes exactly 3 calls. -/
theorem claim_C9_witness :
    (∃ res, buildmanager cg3 fs3 deleFail 2 1 OnFailure.ignore 20 5 = some res ∧
      callsOf (exSt res) 1 ≤ 1) ∧
    buildmanager cg3 fs3 deleFail 2 0 OnFailure.ignore 20 (4 + 1) =
      some (Except.ok { fs := fs3, attempts := [], calls := [] }) ∧
    (worker (fun _ => Except.error ()) 3 0 false).2 = 3 := by
  refine ⟨⟨_, rfl, ?_⟩, ?_, ?_⟩
  · exact (claim_C9 cg3 fs3 deleFail 2 1 OnFailure.ignore 20 5).1 _
      (fun d r f => ⟨f, rfl⟩) rfl 1
  · exact (claim_C9 cg3 fs3 deleFail 2 1 OnFailure.ignore 20 5).2.1
      [[(1, Reason.missing)], [(2, Reason.missing)]] 4 rfl
  · exact ((claim_C9 cg3 fs3 deleFail 2 1 OnFailure.ignore 20 5).2.2
      (fun _ => Except.error ()) 3).1

end Depgraph
